import Mathlib

/-!
Verification development for the MetaMan Project Mirror Synchronizer
(`MetaMan/services/server_sync.py`) and the session-inventory server-path
reconciliation loops (`MetaMan/main.py` and `MetaMan/tabs/recording_tab.py`).

The Python code is shallowly embedded: the filesystem is an explicit state
value (`FS`), paths are strings with POSIX `/` joining (the explicit
`rstrip("/\x5c\x5c")` of the source, which also handles backslashes, is modelled
verbatim), file contents are lists of bytes (`List Nat`), and wall-clock
timing of a copy — which only feeds the reported MB/s throughput numbers —
is an oracle field of the state (`FS.elapsedAt`).  Exceptions are modelled
with an explicit error constructor that aborts the remainder of a run.
`os.makedirs` creating intermediate ancestor directories is elided (only the
requested directory is recorded); no claim observes ancestor directories.
-/

/-- Bytes of a file, one `Nat` per byte. -/
abbrev Bytes := List Nat

/-- Association-list lookup on string keys (first binding wins), used to model
    both the file table and the mtime table of the filesystem state. -/
def alookup {β : Type} : List (String × β) → String → Option β
  | [], _ => none
  | (q, v) :: rest, p => if q = p then some v else alookup rest p

/-- POSIX `os.path.join` on two components: an absolute second component
    wins; otherwise a separator is inserted unless one is already present. -/
def pjoin (a b : String) : String :=
  if b.data.head? = some '/' then b
  else if a = "" then b
  else if a.data.getLast? = some '/' then a ++ b
  else a ++ "/" ++ b

/-- Left fold of `os.path.join` over path segments. -/
def joinAll (base : String) (segs : List String) : String :=
  segs.foldl pjoin base

/-- Separator test for the explicit `rstrip("/\x5c\x5c")` of the source. -/
def isSepChar (c : Char) : Bool :=
  c = '/' || c = '\\'

/-- Python `p.rstrip("/\x5c\x5c")`: drop trailing slash/backslash characters. -/
def rstripSeps (s : String) : String :=
  ⟨(s.data.reverse.dropWhile isSepChar).reverse⟩

/-- POSIX `os.path.basename`: the part after the last `/`. -/
def basename (s : String) : String :=
  ⟨(s.data.reverse.takeWhile (fun c => c ≠ '/')).reverse⟩

/-- POSIX `os.path.dirname`: the part before the last `/`, with trailing
    slashes stripped unless the head is all slashes. -/
def dirname (s : String) : String :=
  let r := s.data.reverse.dropWhile (fun c => c ≠ '/')
  if r = [] then ⟨[]⟩
  else if r.all (fun c => c = '/') then ⟨r.reverse⟩
  else ⟨(r.dropWhile (fun c => c = '/')).reverse⟩

/-- Destination project directory computed by `sync_project_to_server`:
    `os.path.join(server_root, os.path.basename(project_dir.rstrip("/\x5c\x5c")))`. -/
def dst_project_of (project_dir server_root : String) : String :=
  pjoin server_root (basename (rstripSeps project_dir))

/-- `COPY_CHUNK_BYTES = 4 * 1024 * 1024` from `MetaMan/config.py`. -/
def COPY_CHUNK_BYTES : Nat := 4 * 1024 * 1024

/-- Fuel-indexed worker for `chunksOf`; the fuel bounds the number of reads
    (one byte is consumed per read at least, so `b.length` fuel suffices). -/
def chunksOfAux (n : Nat) : Nat → Bytes → List Bytes
  | _, [] => []
  | 0, _ => []
  | fuel + 1, b => if n = 0 then [] else b.take n :: chunksOfAux n fuel (b.drop n)

/-- Successive results of `fsrc.read(n)` until the empty read: the source
    split into chunks of `n` bytes (`read(0)` returns `b""` at once, ending
    the loop, hence the empty result for `n = 0`). -/
def chunksOf (n : Nat) (b : Bytes) : List Bytes :=
  chunksOfAux n b.length b

/-- Filesystem state: directory set, file table, mtime table, the set of
    destination paths on which `shutil.copystat` raises, and the timing
    oracle giving the elapsed seconds observed after the k-th chunk of a
    given source file (it determines only the reported MB/s figures). -/
structure FS where
  dirs : List String
  files : List (String × Bytes)
  mtimes : List (String × Nat)
  copystatFails : List String
  elapsedAt : String → Nat → ℚ

/-- `os.path.exists`: true for a directory or a file at the path. -/
def FS.pathExists (fs : FS) (p : String) : Bool :=
  fs.dirs.contains p || (alookup fs.files p).isSome

/-- `os.path.getsize`: the byte size of a regular file; `none` models the
    call raising (missing path, or a path that is not a regular file). -/
def FS.getsize (fs : FS) (p : String) : Option Nat :=
  (alookup fs.files p).map List.length

/-- `os.makedirs(p, exist_ok=True)` (ancestor creation elided). -/
def FS.makedirs (fs : FS) (p : String) : FS :=
  if fs.dirs.contains p then fs else { fs with dirs := p :: fs.dirs }

/-- Effect of `open(dst, "wb")` plus the write loop: the destination file
    holds exactly the written bytes (earlier bindings are shadowed). -/
def FS.writeFile (fs : FS) (p : String) (c : Bytes) : FS :=
  { fs with files := (p, c) :: fs.files }

/-- `shutil.copystat(src, dst)` wrapped in `try/except: pass`: best-effort
    metadata copy; a failing call leaves the state unchanged. -/
def FS.copystat (fs : FS) (src dst : String) : FS :=
  if fs.copystatFails.contains dst then fs
  else
    match alookup fs.mtimes src with
    | some m => { fs with mtimes := (dst, m) :: fs.mtimes }
    | none => fs

/-- `_needs_copy(src, dst)` from `server_sync.py`: true when `dst` does not
    exist; otherwise compares sizes, any stat failure yielding true. -/
def needs_copy (fs : FS) (src dst : String) : Bool :=
  if !(fs.pathExists dst) then true
  else
    match fs.getsize src, fs.getsize dst with
    | some a, some b => decide (a ≠ b)
    | _, _ => true

/-- One line handed to the log callback, kept structured; `Msg.render`
    produces the exact f-string text of the source. -/
inductive Msg where
  | progress (name : String) (copied total : Nat) (bps : ℚ)
  | copiedSummary (rel : String) (bps : ℚ)
  | alreadySummary (rel : String)
deriving DecidableEq

/-- Two-decimal rendering of a rate, modelling the `:.2f` format (ties of
    the binary float formatting are approximated by rational rounding). -/
def fmt2 (q : ℚ) : String :=
  let n := (round (q * 100) : ℤ).toNat
  toString (n / 100) ++ "." ++ (if n % 100 < 10 then "0" else "") ++ toString (n % 100)

/-- Exact text of each log line as produced by the f-strings of the source. -/
def Msg.render : Msg → String
  | .progress name copied total bps =>
      "Copying " ++ name ++ ": " ++ toString copied ++ "/" ++ toString total
        ++ " bytes (" ++ fmt2 (bps / (1024 * 1024)) ++ " MB/s)"
  | .copiedSummary rel bps =>
      "✓ Copied to server at " ++ rel ++ " @ " ++ fmt2 (bps / (1024 * 1024)) ++ " MB/s"
  | .alreadySummary rel =>
      "✓ Already on server: " ++ rel

/-- Terminal per-file summary lines, as opposed to per-chunk progress lines. -/
def Msg.isSummary : Msg → Bool
  | .progress _ _ _ _ => false
  | .copiedSummary _ _ => true
  | .alreadySummary _ => true

/-- Cumulative-average throughput `copied / max(elapsed, 1e-6)`. -/
def bpsOf (copied : Nat) (elapsed : ℚ) : ℚ :=
  (copied : ℚ) / max elapsed (1 / 1000000)

/-- Per-chunk progress lines of the copy loop: after the k-th chunk the line
    reports cumulative bytes, the total, and the running throughput. -/
def progressMsgs (fs : FS) (src : String) (content : Bytes) : List Msg :=
  let chunks := chunksOf COPY_CHUNK_BYTES content
  (List.range chunks.length).map fun k =>
    let copied := ((chunks.take (k + 1)).flatten).length
    Msg.progress (basename src) copied content.length
      (bpsOf copied (fs.elapsedAt src (k + 1)))

/-- Result of `copy_with_progress`: either an exception propagating out of
    the call, or the `(performed, bytes-per-second)` pair plus the filesystem
    after the call and the progress lines logged during it. -/
inductive CopyRes where
  | err (fs : FS)
  | ok (fs : FS) (performed : Bool) (bps : ℚ) (msgs : List Msg)

/-- `copy_with_progress(src, dst, log)` from `server_sync.py`: ensure the
    destination's parent directory, skip when `_needs_copy` is false,
    otherwise stream the source in `COPY_CHUNK_BYTES` chunks (logging one
    progress line per chunk), finish with a best-effort `copystat`, and
    return the throughput.  `os.path.getsize(src)` raising (source absent)
    is the modelled exception. -/
def copy_with_progress (fs0 : FS) (src dst : String) : CopyRes :=
  let fs := fs0.makedirs (dirname dst)
  if !(needs_copy fs src dst) then .ok fs false 0 []
  else
    match alookup fs.files src with
    | none => .err fs
    | some content =>
      let chunks := chunksOf COPY_CHUNK_BYTES content
      let msgs := progressMsgs fs src content
      let fs1 := fs.writeFile dst chunks.flatten
      let fs2 := fs1.copystat src dst
      .ok fs2 true (bpsOf content.length (fs.elapsedAt src (chunks.length + 1))) msgs

mutual
/-- A snapshot of the source project tree as `os.walk` enumerates it:
    subdirectory entries in listing order, then file names. -/
inductive DirTree where
  | node (dirs : DirTreeList) (files : List String)

/-- Listing-ordered subdirectory entries of a `DirTree` node. -/
inductive DirTreeList where
  | nil
  | cons (name : String) (child : DirTree) (rest : DirTreeList)
end

mutual
/-- Files yielded by the walk of a subtree rooted at relative path `rel`,
    in `os.walk` top-down order: the node's own files first, then the files
    of each subdirectory in listing order. -/
def DirTree.walkFilesFrom : DirTree → List String → List (List String × String)
  | .node ds fls, rel => fls.map (fun f => (rel, f)) ++ DirTreeList.walkFilesFrom ds rel

/-- Files yielded by walking each subdirectory entry in order. -/
def DirTreeList.walkFilesFrom : DirTreeList → List String → List (List String × String)
  | .nil, _ => []
  | .cons n c rest, rel =>
      DirTree.walkFilesFrom c (rel ++ [n]) ++ DirTreeList.walkFilesFrom rest rel
end

/-- Files of the whole project tree in walk order, with their relative
    directory segments. -/
def DirTree.walkFiles (t : DirTree) : List (List String × String) :=
  t.walkFilesFrom []

/-- Absolute source path of a walked file. -/
def srcOf (pd : String) (pf : List String × String) : String :=
  pjoin (joinAll pd pf.1) pf.2

/-- Absolute destination path of a walked file under the destination
    project directory `dp`. -/
def dstOf (dp : String) (pf : List String × String) : String :=
  pjoin (joinAll dp pf.1) pf.2

/-- `os.path.relpath(dst, server_root)` for a walked file: the project name
    followed by the relative segments and the file name. -/
def relStr (pn : String) (rel : List String) (f : String) : String :=
  String.intercalate "/" (pn :: (rel ++ [f]))

/-- State threaded through a mirror run: filesystem, log so far, and whether
    the run is still alive (`ok = false` once an exception propagates). -/
structure SyncSt where
  fs : FS
  log : List Msg
  ok : Bool

/-- The `for d in dirs: _ensure_dir(os.path.join(dst_dir, d))` loop. -/
def mkChildDirs (dstDir : String) : DirTreeList → FS → FS
  | .nil, fs => fs
  | .cons n _ rest, fs => mkChildDirs dstDir rest (fs.makedirs (pjoin dstDir n))

/-- The `for f in files:` loop of `sync_project_to_server`: copy each file,
    then log exactly one summary line for it; an exception from
    `copy_with_progress` aborts everything that follows. -/
def syncFiles (pd dp pn : String) (rel : List String) : List String → SyncSt → SyncSt
  | [], st => st
  | f :: rest, st =>
    if st.ok then
      let src := pjoin (joinAll pd rel) f
      let dst := pjoin (joinAll dp rel) f
      match copy_with_progress st.fs src dst with
      | .err fs1 => { fs := fs1, log := st.log, ok := false }
      | .ok fs1 performed bps msgs =>
        let summary :=
          if performed then Msg.copiedSummary (relStr pn rel f) bps
          else Msg.alreadySummary (relStr pn rel f)
        syncFiles pd dp pn rel rest { fs := fs1, log := st.log ++ msgs ++ [summary], ok := true }
    else st

mutual
/-- One `os.walk` iteration at relative path `rel` followed by the descent:
    ensure the destination directory, eagerly create the child directories,
    copy the node's files, then recurse into the children in order. -/
def syncTree (pd dp pn : String) (t : DirTree) (rel : List String) (st : SyncSt) : SyncSt :=
  match t with
  | .node ds fls =>
    if st.ok then
      let dstDir := joinAll dp rel
      let fs2 := mkChildDirs dstDir ds (st.fs.makedirs dstDir)
      let st1 := syncFiles pd dp pn rel fls { st with fs := fs2 }
      syncTreeChildren pd dp pn ds rel st1
    else st

/-- Descend into the subdirectory entries in listing order. -/
def syncTreeChildren (pd dp pn : String) (ds : DirTreeList) (rel : List String) (st : SyncSt) : SyncSt :=
  match ds with
  | .nil => st
  | .cons n c rest =>
      syncTreeChildren pd dp pn rest rel (syncTree pd dp pn c (rel ++ [n]) st)
end

/-- `sync_project_to_server(project_dir, server_root, log)`: compute the
    project name from the stripped basename, create the destination project
    directory, and walk the snapshot `t` of the source tree. -/
def sync_project_to_server (t : DirTree) (project_dir server_root : String) (fs : FS) : SyncSt :=
  let project_name := basename (rstripSeps project_dir)
  let dst_project := dst_project_of project_dir server_root
  let fs1 := fs.makedirs dst_project
  syncTree project_dir dst_project project_name t [] { fs := fs1, log := [], ok := true }

/-- Fuel-indexed worker for Python `str.replace` with a non-empty pattern:
    scan left to right, replacing non-overlapping occurrences.  One character
    is consumed per step at least, so the string length is enough fuel. -/
def replAux (old new : List Char) : Nat → List Char → List Char
  | _, [] => []
  | 0, s => s
  | fuel + 1, c :: rest =>
    if old ≠ [] ∧ old.isPrefixOf (c :: rest) then
      new ++ replAux old new fuel ((c :: rest).drop old.length)
    else c :: replAux old new fuel rest

/-- Python `s.replace(old, new)`: replace every non-overlapping occurrence of
    `old` by `new`, scanning left to right; for `old = ""` Python inserts
    `new` before every character and at the end. -/
def pyReplace (s old new : String) : String :=
  if old.data = [] then ⟨new.data ++ (s.data.map (fun c => c :: new.data)).flatten⟩
  else ⟨replAux old.data new.data s.data.length s.data⟩

/-- One entry of a session's file inventory, with the fields the
    reconciliation loop reads and writes. -/
structure FileRecord where
  path : String
  size : Nat
  server_path : String
deriving DecidableEq

/-- The reconciliation loop of `MainWindow._copy_to_server` and
    `RecordingTab.update_file_list`:
    `spath = item["path"].replace(session_dir, server_session_dir)` followed by
    `item["server_path"] = spath if os.path.exists(spath) else ""`,
    expressed as the state of the record list after the loop. -/
def annotate_server_paths (fs : FS) (session_dir server_session_dir : String) :
    List FileRecord → List FileRecord
  | [] => []
  | it :: rest =>
    let spath := pyReplace it.path session_dir server_session_dir
    { it with server_path := if fs.pathExists spath then spath else "" }
      :: annotate_server_paths fs session_dir server_session_dir rest

/-- Session metadata as far as the reconciliation loop observes it: the
    mutable `file_list` entry of the loaded metadata dictionary. -/
structure SessionMeta where
  file_list : List FileRecord
deriving DecidableEq

/-- Effect of the reconciliation loop on the enclosing session metadata,
    with the in-place mutation of the records rendered as explicit state
    passing: the stored `file_list` after the loop. -/
def update_server_paths (fs : FS) (session_dir server_session_dir : String)
    (meta : SessionMeta) : SessionMeta :=
  { meta with file_list := annotate_server_paths fs session_dir server_session_dir meta.file_list }

/-- Modelled from the spec: the candidate server path as §4.4 words it,
    "derive the candidate server path by substituting the `sessionRawDir`
    prefix of `record.path` with `sessionServerDir`" — a prefix substitution,
    used only to compare the spec's description against the code's
    `str.replace`. -/
def specPrefixCandidate (path rawDir serverDir : String) : String :=
  if rawDir.data.isPrefixOf path.data then serverDir ++ ⟨path.data.drop rawDir.data.length⟩
  else path

/-- Presence of the source file of a walked entry in a file table. -/
def presentSrc (pd : String) (files : List (String × Bytes)) (pf : List String × String) : Bool :=
  (alookup files (srcOf pd pf)).isSome

/-- The condition on a file table under which `_needs_copy` skips a walked
    file: a destination file of the source's byte size already exists.  At
    the start of a well-separated run this decides each file's branch. -/
def sizeMatched (pd dp : String) (files : List (String × Bytes))
    (pf : List String × String) : Prop :=
  ∃ c b, alookup files (srcOf pd pf) = some c ∧
    alookup files (dstOf dp pf) = some b ∧ b.length = c.length

/-- The one terminal summary line a walked file produces, tied to the
    file's outcome: the "already on server" line exactly when a size-equal
    destination made `_needs_copy` skip the file, and a "copied to server"
    line (with some rate) exactly when the file was copied. -/
def summMatch (pd dp pn : String) (files : List (String × Bytes))
    (pf : List String × String) (m : Msg) : Prop :=
  (sizeMatched pd dp files pf → m = Msg.alreadySummary (relStr pn pf.1 pf.2)) ∧
  (¬ sizeMatched pd dp files pf →
    ∃ r, m = Msg.copiedSummary (relStr pn pf.1 pf.2) r)

/-- Per-file outcome of a run started on file table `files0` and ending on
    `files1`: the destination holds bytes of the source's length, and those
    bytes are either the streamed chunk concatenation of the source or the
    destination's pre-existing content (the size-equal skip). -/
def postCond (pd dp : String) (files0 files1 : List (String × Bytes))
    (pf : List String × String) : Prop :=
  ∃ c b, alookup files0 (srcOf pd pf) = some c ∧
    alookup files1 (dstOf dp pf) = some b ∧
    b.length = c.length ∧
    (b = (chunksOf COPY_CHUNK_BYTES c).flatten ∨ alookup files0 (dstOf dp pf) = some b)

/-- Full characterisation of a (partial) walk over the files `W`, started on
    file table `files0` with log `log0`: the run survives exactly when every
    walked source is present; files outside the destinations of the
    processed prefix are untouched; every processed file satisfies
    `postCond`; and the new log lines contain exactly one summary line per
    processed file, in walk order. -/
def RunSpec (pd dp pn : String) (W : List (List String × String))
    (files0 : List (String × Bytes)) (log0 : List Msg) (res : SyncSt) : Prop :=
  res.ok = W.all (presentSrc pd files0) ∧
  (∀ p, p ∉ (W.takeWhile (presentSrc pd files0)).map (dstOf dp) →
      alookup res.fs.files p = alookup files0 p) ∧
  (∀ pf ∈ W.takeWhile (presentSrc pd files0), postCond pd dp files0 res.fs.files pf) ∧
  (∃ newL, res.log = log0 ++ newL ∧
      List.Forall₂ (summMatch pd dp pn files0) (W.takeWhile (presentSrc pd files0))
        (newL.filter Msg.isSummary))

/-- Well-formedness of a walked file list as the snapshot of a real
    directory tree mirrored to a separate destination: no source path is a
    destination path, and the destination paths are pairwise distinct. -/
def SepHyp (pd dp : String) (W : List (List String × String)) : Prop :=
  (∀ pf ∈ W, ∀ pf2 ∈ W, srcOf pd pf ≠ dstOf dp pf2) ∧ (W.map (dstOf dp)).Nodup

/-- Every walked file already has a size-equal destination: the hypothesis
    under which a run performs no copy at all. -/
def SkipHyp (pd dp : String) (files0 : List (String × Bytes))
    (W : List (List String × String)) : Prop :=
  ∀ pf ∈ W, ∃ c b, alookup files0 (srcOf pd pf) = some c ∧
    alookup files0 (dstOf dp pf) = some b ∧ b.length = c.length

/-- Everything about a `copy_with_progress` result except the mtime table
    and the `copystat` fault set: used to state that a metadata-copy failure
    is invisible to the caller. -/
def CopyRes.obs : CopyRes → Bool × List (String × Bytes) × List String × Option (Bool × ℚ × List Msg)
  | .err fs => (false, fs.files, fs.dirs, none)
  | .ok fs p b m => (true, fs.files, fs.dirs, some (p, b, m))

/-- Trivial timing oracle for the concrete examples: one second elapsed at
    every observation point. -/
def exElapsed : String → Nat → ℚ := fun _ _ => 1

/-- Concrete state for exercising `needs_copy`: two one-byte files. -/
def fs3 : FS := ⟨[], [("s", [0]), ("d", [1])], [], [], exElapsed⟩

/-- Concrete state for exercising the skip branch of `copy_with_progress`:
    equal-size source and destination whose parent directory exists. -/
def fs8 : FS := ⟨[""], [("s", [9]), ("d", [7])], [], [], exElapsed⟩

/-- One project tree holding a single file `f` at the top level. -/
def tree1 : DirTree := .node .nil ["f"]

/-- State where the mirror of `tree1` from `P` to `S` already holds a
    size-equal destination with different byte content. -/
def fs1cex : FS := ⟨[], [("P/f", [0]), ("S/P/f", [1])], [], [], exElapsed⟩

/-- Project tree with a top-level file and one subdirectory holding a file. -/
def tree1w : DirTree := .node (.cons "a" (.node .nil ["g"]) .nil) ["f"]

/-- Fresh source state for mirroring `tree1w` from `P` to `S`. -/
def fs1w : FS := ⟨[], [("P/f", [0, 1]), ("P/a/g", [2])], [], [], exElapsed⟩

/-- Tree with three top-level files, the middle one absent from `fs9`:
    the walk reaches `b` and the copy raises there. -/
def tree9 : DirTree := .node .nil ["a", "b", "c"]

/-- State for the aborted run on `tree9`: only source `P/a` exists. -/
def fs9 : FS := ⟨[], [("P/a", [1])], [], [], exElapsed⟩

/-- State holding a file at the replace-all image of `/r/x/r/x`. -/
def fs4 : FS := ⟨[], [("/s/x/s/x", [0])], [], [], exElapsed⟩

/-- Inventory record whose path contains the raw dir twice. -/
def rec4 : FileRecord := ⟨"/r/x/r/x", 1, "old"⟩

/-- State holding the (still existing) source file of a legacy record. -/
def fs5 : FS := ⟨[], [("/data/f", [0])], [], [], exElapsed⟩

/-- Legacy inventory record whose path is not under the session raw dir. -/
def rec5 : FileRecord := ⟨"/data/f", 1, ""⟩

/-- Empty filesystem for the reconciliation-mutation example. -/
def fs6 : FS := ⟨[], [], [], [], exElapsed⟩

/-- Session metadata holding one record with a stale server path. -/
def meta6 : SessionMeta := ⟨[⟨"/r/f", 1, "stale"⟩]⟩

/-- Pointwise-equal predicates take the same prefix. -/
theorem takeWhile_congr_mem {α : Type} {p q : α → Bool} :
    ∀ (l : List α), (∀ a ∈ l, p a = q a) → l.takeWhile p = l.takeWhile q
  | [], _ => rfl
  | a :: l, h => by
    have ha := h a (List.mem_cons_self a l)
    by_cases hp : p a = true
    · rw [List.takeWhile_cons_of_pos hp, List.takeWhile_cons_of_pos (ha ▸ hp),
        takeWhile_congr_mem l (fun x hx => h x (List.mem_cons_of_mem _ hx))]
    · rw [List.takeWhile_cons_of_neg hp, List.takeWhile_cons_of_neg (fun hq => hp (ha ▸ hq))]

/-- A failing element inside the first part stops `takeWhile` there. -/
theorem takeWhile_append_stop {α : Type} {p : α → Bool} :
    ∀ (l1 l2 : List α), l1.all p = false → (l1 ++ l2).takeWhile p = l1.takeWhile p
  | [], _, h => by simp at h
  | a :: t, l2, h => by
    by_cases hpa : p a = true
    · have ht : t.all p = false := by simpa [hpa] using h
      rw [List.cons_append, List.takeWhile_cons_of_pos hpa, List.takeWhile_cons_of_pos hpa,
        takeWhile_append_stop t l2 ht]
    · rw [List.cons_append, List.takeWhile_cons_of_neg hpa, List.takeWhile_cons_of_neg hpa]

/-- With a satisfied prefix and a failing pivot, `takeWhile` is the prefix. -/
theorem takeWhile_split {α : Type} {p : α → Bool} (pre : List α) (x : α) (post : List α)
    (h1 : ∀ a ∈ pre, p a = true) (h2 : p x = false) :
    (pre ++ x :: post).takeWhile p = pre := by
  rw [List.takeWhile_append_of_pos h1, List.takeWhile_cons_of_neg (by simp [h2]),
    List.append_nil]

theorem alookup_cons_self {β : Type} (p : String) (v : β) (l : List (String × β)) :
    alookup ((p, v) :: l) p = some v := by
  simp [alookup]

theorem alookup_cons_ne {β : Type} {q p : String} (v : β) (l : List (String × β))
    (h : q ≠ p) : alookup ((q, v) :: l) p = alookup l p := by
  simp [alookup, h]

/-- Concatenating the successive reads reconstructs the source exactly. -/
theorem chunksOfAux_flatten (n : Nat) (hn : 0 < n) :
    ∀ (fuel : Nat) (b : Bytes), b.length ≤ fuel → (chunksOfAux n fuel b).flatten = b := by
  intro fuel
  induction fuel with
  | zero =>
    intro b hb
    cases b with
    | nil => rfl
    | cons c rest => simp at hb
  | succ k ih =>
    intro b hb
    cases b with
    | nil => rfl
    | cons c rest =>
      have hn0 : ¬ n = 0 := Nat.pos_iff_ne_zero.mp hn
      have hlen : ((c :: rest).drop n).length ≤ k := by
        rw [List.length_drop]
        omega
      simp only [chunksOfAux, if_neg hn0, List.flatten_cons, ih _ hlen,
        List.take_append_drop]

/-- Concatenating the chunks of the copy loop reconstructs the source. -/
theorem chunksOf_flatten (n : Nat) (hn : 0 < n) (b : Bytes) :
    (chunksOf n b).flatten = b :=
  chunksOfAux_flatten n hn b.length b le_rfl

/-- Every read of the copy loop returns between 1 and `n` bytes. -/
theorem chunksOfAux_mem (n : Nat) :
    ∀ (fuel : Nat) (b c : Bytes), c ∈ chunksOfAux n fuel b → c ≠ [] ∧ c.length ≤ n := by
  intro fuel
  induction fuel with
  | zero =>
    intro b c hc
    cases b <;> simp [chunksOfAux] at hc
  | succ k ih =>
    intro b c hc
    cases b with
    | nil => simp [chunksOfAux] at hc
    | cons x rest =>
      by_cases hn0 : n = 0
      · simp [chunksOfAux, hn0] at hc
      · simp only [chunksOfAux, if_neg hn0, List.mem_cons] at hc
        cases hc with
        | inl h =>
          subst h
          refine ⟨by simp [hn0], List.length_take_le n _⟩
        | inr h => exact ih _ _ h

/-- Every chunk of `chunksOf` is nonempty and at most `n` bytes long. -/
theorem chunksOf_mem (n : Nat) (b c : Bytes) (h : c ∈ chunksOf n b) :
    c ≠ [] ∧ c.length ≤ n :=
  chunksOfAux_mem n b.length b c h

theorem makedirs_files (fs : FS) (p : String) : (fs.makedirs p).files = fs.files := by
  unfold FS.makedirs
  split <;> rfl

theorem makedirs_elapsedAt (fs : FS) (p : String) :
    (fs.makedirs p).elapsedAt = fs.elapsedAt := by
  unfold FS.makedirs
  split <;> rfl

theorem copystat_files (fs : FS) (s d : String) : (fs.copystat s d).files = fs.files := by
  unfold FS.copystat
  split
  · rfl
  · cases alookup fs.mtimes s <;> rfl

theorem mkChildDirs_files (d : String) :
    ∀ (ds : DirTreeList) (fs : FS), (mkChildDirs d ds fs).files = fs.files
  | .nil, fs => rfl
  | .cons n c rest, fs => by
    rw [mkChildDirs, mkChildDirs_files d rest, makedirs_files]

theorem needs_copy_eq_of_lookups (fs : FS) (s d : String) (c b : Bytes)
    (hs : alookup fs.files s = some c) (hd : alookup fs.files d = some b) :
    needs_copy fs s d = decide (c.length ≠ b.length) := by
  have hpe : fs.pathExists d = true := by simp [FS.pathExists, hd]
  simp [needs_copy, hpe, FS.getsize, hs, hd]

theorem needs_copy_true_of_src_absent (fs : FS) (s d : String)
    (hs : alookup fs.files s = none) : needs_copy fs s d = true := by
  by_cases hpe : fs.pathExists d = true
  · cases hd : alookup fs.files d <;> simp [needs_copy, hpe, FS.getsize, hs, hd]
  · have hpe2 : fs.pathExists d = false := by
      cases h : fs.pathExists d
      · rfl
      · exact absurd h hpe
    simp [needs_copy, hpe2]

theorem progressMsgs_filter (fs : FS) (src : String) (content : Bytes) :
    (progressMsgs fs src content).filter Msg.isSummary = [] := by
  unfold progressMsgs
  rw [List.filter_eq_nil_iff]
  intro a ha
  obtain ⟨k, _, rfl⟩ := List.mem_map.mp ha
  simp [Msg.isSummary]

theorem needs_copy_true_of_dst_not_file (fs : FS) (s d : String)
    (hd : alookup fs.files d = none) : needs_copy fs s d = true := by
  by_cases hpe : fs.pathExists d = true
  · cases hsx : alookup fs.files s <;> simp [needs_copy, hpe, FS.getsize, hsx, hd]
  · have hpe2 : fs.pathExists d = false := by
      cases h : fs.pathExists d
      · rfl
      · exact absurd h hpe
    simp [needs_copy, hpe2]

/-- An absent source makes `copy_with_progress` raise (the uncaught
    `os.path.getsize(src)` after `_needs_copy` returned true). -/
theorem copy_absent (fs : FS) (src dst : String)
    (h : alookup fs.files src = none) :
    copy_with_progress fs src dst = .err (fs.makedirs (dirname dst)) := by
  have h2 : alookup (fs.makedirs (dirname dst)).files src = none := by
    rw [makedirs_files]; exact h
  have hnc := needs_copy_true_of_src_absent (fs.makedirs (dirname dst)) src dst h2
  simp [copy_with_progress, hnc, h2]

/-- A size-equal existing destination is skipped: `(performed, bps) = (false, 0)`,
    nothing is logged, only the parent-directory `makedirs` ran. -/
theorem copy_skip (fs : FS) (src dst : String) (c b : Bytes)
    (hs : alookup fs.files src = some c) (hd : alookup fs.files dst = some b)
    (hlen : b.length = c.length) :
    copy_with_progress fs src dst = .ok (fs.makedirs (dirname dst)) false 0 [] := by
  have hnc : needs_copy (fs.makedirs (dirname dst)) src dst = false := by
    rw [needs_copy_eq_of_lookups _ src dst c b (by rw [makedirs_files]; exact hs)
      (by rw [makedirs_files]; exact hd)]
    simp [hlen]
  simp [copy_with_progress, hnc]

/-- With the source present, `copy_with_progress` returns normally; the
    copy is performed exactly when no size-equal destination file already
    existed: then the destination afterwards holds the streamed chunk
    concatenation; otherwise the file table is untouched and a size-equal
    destination was present. -/
theorem copy_present (fs : FS) (src dst : String) (c : Bytes)
    (hs : alookup fs.files src = some c) :
    ∃ fs1 performed bps msgs,
      copy_with_progress fs src dst = .ok fs1 performed bps msgs ∧
      msgs.filter Msg.isSummary = [] ∧
      (∀ p, p ≠ dst → alookup fs1.files p = alookup fs.files p) ∧
      ((performed = true ∧
          alookup fs1.files dst = some ((chunksOf COPY_CHUNK_BYTES c).flatten) ∧
          ¬ ∃ b, alookup fs.files dst = some b ∧ b.length = c.length) ∨
        (performed = false ∧ fs1.files = fs.files ∧
          ∃ b, alookup fs.files dst = some b ∧ b.length = c.length)) := by
  have hsM : alookup (fs.makedirs (dirname dst)).files src = some c := by
    rw [makedirs_files]; exact hs
  by_cases hnc : needs_copy (fs.makedirs (dirname dst)) src dst = true
  · refine ⟨(((fs.makedirs (dirname dst)).writeFile dst
        ((chunksOf COPY_CHUNK_BYTES c).flatten)).copystat src dst), true,
      bpsOf c.length ((fs.makedirs (dirname dst)).elapsedAt src
        ((chunksOf COPY_CHUNK_BYTES c).length + 1)),
      progressMsgs (fs.makedirs (dirname dst)) src c,
      ?_, progressMsgs_filter _ _ _, ?_, ?_⟩
    · simp [copy_with_progress, hnc, hsM]
    · intro p hp
      rw [copystat_files, FS.writeFile, alookup_cons_ne _ _ (fun h => hp h.symm),
        makedirs_files]
    · left
      refine ⟨rfl, ?_, ?_⟩
      · rw [copystat_files, FS.writeFile]
        exact alookup_cons_self _ _ _
      · rintro ⟨b, hb, hlen⟩
        have := needs_copy_eq_of_lookups (fs.makedirs (dirname dst)) src dst c b hsM
          (by rw [makedirs_files]; exact hb)
        rw [this] at hnc
        simp [hlen] at hnc
  · have hnc2 : needs_copy (fs.makedirs (dirname dst)) src dst = false := by
      cases h : needs_copy (fs.makedirs (dirname dst)) src dst
      · rfl
      · exact absurd h hnc
    refine ⟨fs.makedirs (dirname dst), false, 0, [], ?_, rfl, ?_, ?_⟩
    · simp [copy_with_progress, hnc2]
    · intro p _
      rw [makedirs_files]
    · right
      refine ⟨rfl, makedirs_files fs _, ?_⟩
      cases hd : alookup fs.files dst with
      | none =>
        exfalso
        have := needs_copy_true_of_dst_not_file (fs.makedirs (dirname dst)) src dst
          (by rw [makedirs_files]; exact hd)
        rw [this] at hnc2
        exact Bool.noConfusion hnc2
      | some b =>
        have := needs_copy_eq_of_lookups (fs.makedirs (dirname dst)) src dst c b hsM
          (by rw [makedirs_files]; exact hd)
        rw [this] at hnc2
        simp at hnc2
        exact ⟨b, rfl, hnc2.symm⟩

/-- C3: `needs_copy` returns true whenever the destination does not exist;
    otherwise it is true exactly when the sizes differ; a stat failure on
    either path yields true; and two equal-size regular files compare as
    not-needing-copy regardless of their content. -/
theorem C3_needs_copy_spec (fs : FS) (s d : String) :
    (fs.pathExists d = false → needs_copy fs s d = true) ∧
    (∀ a b, fs.getsize s = some a → fs.getsize d = some b →
      (needs_copy fs s d = true ↔ a ≠ b)) ∧
    (fs.getsize s = none ∨ fs.getsize d = none → needs_copy fs s d = true) ∧
    (∀ c1 c2, alookup fs.files s = some c1 → alookup fs.files d = some c2 →
      c1.length = c2.length → needs_copy fs s d = false) := by
  refine ⟨?_, ?_, ?_, ?_⟩
  · intro h
    simp [needs_copy, h]
  · intro a b hsa hdb
    obtain ⟨c1, hc1, hc1l⟩ := Option.map_eq_some'.mp hsa
    obtain ⟨c2, hc2, hc2l⟩ := Option.map_eq_some'.mp hdb
    rw [needs_copy_eq_of_lookups fs s d c1 c2 hc1 hc2]
    rw [hc1l, hc2l]
    simp
  · intro h
    cases h with
    | inl hs =>
      have : alookup fs.files s = none := by
        cases hx : alookup fs.files s
        · rfl
        · rw [FS.getsize, hx] at hs
          simp at hs
      exact needs_copy_true_of_src_absent fs s d this
    | inr hd =>
      have : alookup fs.files d = none := by
        cases hx : alookup fs.files d
        · rfl
        · rw [FS.getsize, hx] at hd
          simp at hd
      exact needs_copy_true_of_dst_not_file fs s d this
  · intro c1 c2 h1 h2 hlen
    rw [needs_copy_eq_of_lookups fs s d c1 c2 h1 h2]
    simp [hlen]

/-- Witness for C3 at a concrete state: destination of equal size and
    different content is not re-copied. -/
theorem C3_needs_copy_spec_witness :
    (alookup fs3.files "s" = some [0] ∧ alookup fs3.files "d" = some [1] ∧
      ([0] : Bytes).length = ([1] : Bytes).length ∧ ([0] : Bytes) ≠ [1]) ∧
    needs_copy fs3 "s" "d" = false :=
  ⟨⟨by decide, by decide, by decide, by decide⟩,
    (C3_needs_copy_spec fs3 "s" "d").2.2.2 [0] [1] (by decide) (by decide) (by decide)⟩

/-- C8: when `_needs_copy` is false (and, as on any real filesystem holding
    the destination file, its parent directory exists), `copy_with_progress`
    returns `(performed, bps) = (false, 0)`, logs nothing, and returns the
    state completely unchanged. -/
theorem C8_skip_untouched (fs : FS) (s d : String)
    (h1 : needs_copy fs s d = false) (h2 : fs.dirs.contains (dirname d) = true) :
    copy_with_progress fs s d = .ok fs false 0 [] := by
  have hm : fs.makedirs (dirname d) = fs := by
    unfold FS.makedirs
    rw [h2]
    simp
  simp only [copy_with_progress, hm, h1]
  simp

/-- Witness for C8 at a concrete state. -/
theorem C8_skip_untouched_witness :
    (needs_copy fs8 "s" "d" = false ∧ fs8.dirs.contains (dirname "d") = true) ∧
    copy_with_progress fs8 "s" "d" = .ok fs8 false 0 [] :=
  ⟨⟨by decide, by decide⟩, C8_skip_untouched fs8 "s" "d" (by decide) (by decide)⟩

theorem stringMk_ne_empty (l : List Char) (h : l ≠ []) : (⟨l⟩ : String) ≠ "" := by
  intro he
  apply h
  have h2 : (⟨l⟩ : String).data = ("" : String).data := by rw [he]
  simpa using h2

/-- Appending trailing separator characters is erased by the `rstrip`. -/
theorem rstripSeps_append_seps (p t : String) (h : ∀ c ∈ t.data, isSepChar c = true) :
    rstripSeps (p ++ t) = rstripSeps p := by
  unfold rstripSeps
  rw [String.data_append, List.reverse_append,
    List.dropWhile_append_of_pos (fun a ha => h a (List.mem_reverse.mp ha))]

theorem dropWhile_head_not {α : Type} (p : α → Bool) :
    ∀ (l : List α) {c : α} {rest : List α}, l.dropWhile p = c :: rest → p c = false := by
  intro l
  induction l with
  | nil =>
    intro c rest h
    simp at h
  | cons a t ih =>
    intro c rest h
    by_cases hpa : p a = true
    · rw [List.dropWhile_cons_of_pos hpa] at h
      exact ih h
    · rw [List.dropWhile_cons_of_neg hpa] at h
      injection h with h1 _
      subst h1
      cases hb : p a
      · rfl
      · exact absurd hb hpa

/-- A path whose stripped form is nonempty has a nonempty basename. -/
theorem basename_rstripSeps_ne_empty (p : String) (h : rstripSeps p ≠ "") :
    basename (rstripSeps p) ≠ "" := by
  cases hl : p.data.reverse.dropWhile isSepChar with
  | nil =>
    exfalso
    apply h
    unfold rstripSeps
    rw [hl]
    rfl
  | cons c l' =>
    have hc : isSepChar c = false := dropWhile_head_not isSepChar p.data.reverse hl
    have hc2 : decide (c ≠ '/') = true := by
      simp only [isSepChar, Bool.or_eq_false_iff] at hc
      simpa using fun he => by simp [he] at hc
    have hrw : rstripSeps p = ⟨(c :: l').reverse⟩ := by
      unfold rstripSeps
      rw [hl]
    rw [hrw]
    unfold basename
    rw [show ((⟨(c :: l').reverse⟩ : String)).data = (c :: l').reverse from rfl,
      List.reverse_reverse,
      @List.takeWhile_cons_of_pos Char (fun x => decide (x ≠ '/')) c l' hc2]
    exact stringMk_ne_empty _ (by simp)

/-- C10: the computed destination project directory is
    `server_root/<basename of the stripped source path>`; trailing `/` or
    `\x5c` separators on the source path do not change it; and the project
    name is nonempty whenever the stripped path is nonempty, so the
    destination is never `server_root/<empty>`. -/
theorem C10_trailing_separators (pd t sr : String)
    (h : ∀ c ∈ t.data, isSepChar c = true) (h2 : rstripSeps pd ≠ "") :
    dst_project_of (pd ++ t) sr = dst_project_of pd sr ∧
    dst_project_of pd sr = pjoin sr (basename (rstripSeps pd)) ∧
    basename (rstripSeps pd) ≠ "" := by
  refine ⟨?_, rfl, basename_rstripSeps_ne_empty pd h2⟩
  unfold dst_project_of
  rw [rstripSeps_append_seps pd t h]

/-- Witness for C10: a path with trailing `/` and `\x5c` separators maps to
    the same nonempty project directory as the bare path. -/
theorem C10_trailing_separators_witness :
    ((∀ c ∈ ("/\\/" : String).data, isSepChar c = true) ∧ rstripSeps "B:/raw/Proj" ≠ "") ∧
    (dst_project_of ("B:/raw/Proj" ++ "/\\/") "S" = dst_project_of "B:/raw/Proj" "S" ∧
      dst_project_of "B:/raw/Proj" "S" = pjoin "S" (basename (rstripSeps "B:/raw/Proj")) ∧
      basename (rstripSeps "B:/raw/Proj") ≠ "") :=
  ⟨⟨by decide, by decide⟩,
    C10_trailing_separators "B:/raw/Proj" "/\\/" "S" (by decide) (by decide)⟩

/-- A pattern that occurs nowhere is never replaced. -/
theorem replAux_no_occurrence (old new : List Char) :
    ∀ (fuel : Nat) (s : List Char), s.length ≤ fuel → ¬ old <:+: s →
      replAux old new fuel s = s := by
  intro fuel
  induction fuel with
  | zero =>
    intro s hs _
    cases s with
    | nil => rfl
    | cons a t => simp at hs
  | succ k ih =>
    intro s hs hinf
    cases s with
    | nil => rfl
    | cons a t =>
      have hpre : ¬ old.isPrefixOf (a :: t) = true := by
        intro hp
        exact hinf (List.IsPrefix.isInfix (List.isPrefixOf_iff_prefix.mp hp))
      rw [replAux, if_neg (fun hand => hpre hand.2)]
      congr 1
      apply ih
      · simpa using Nat.le_of_succ_le_succ hs
      · intro hi
        exact hinf (List.infix_cons hi)

/-- Python `s.replace(old, new) = s` when the nonempty `old` does not occur
    in `s` at all. -/
theorem pyReplace_no_occurrence (s old new : String) (h0 : old ≠ "")
    (h : ¬ old.data <:+: s.data) : pyReplace s old new = s := by
  have h0d : old.data ≠ [] := by
    intro he
    exact h0 (String.ext (he.trans rfl))
  unfold pyReplace
  rw [if_neg h0d]
  apply String.ext
  rw [replAux_no_occurrence old.data new.data s.data.length s.data le_rfl h]

/-- The reconciliation loop is the pointwise recomputation of each record's
    `server_path` from its `path` via the textual replace and an existence
    check, all other fields untouched. -/
theorem annotate_eq_map (fs : FS) (sd ssd : String) :
    ∀ (items : List FileRecord), annotate_server_paths fs sd ssd items =
      items.map (fun it =>
        { it with server_path :=
            if fs.pathExists (pyReplace it.path sd ssd) then pyReplace it.path sd ssd
            else "" })
  | [] => rfl
  | it :: rest => by
    simp only [annotate_server_paths, List.map_cons, annotate_eq_map fs sd ssd rest]

/-- Reconciling an already-reconciled inventory (possibly against another
    server dir first) gives the same result as reconciling the original. -/
theorem annotate_comp (fs : FS) (sd ssd ssd1 : String) (items : List FileRecord) :
    annotate_server_paths fs sd ssd (annotate_server_paths fs sd ssd1 items) =
      annotate_server_paths fs sd ssd items := by
  rw [annotate_eq_map, annotate_eq_map, annotate_eq_map, List.map_map]
  congr 1

/-- C4 counterexample: for a record whose path contains the session raw dir
    twice, the code's `str.replace` substitutes every occurrence, so the
    assigned `server_path` is neither the spec's prefix-substitution
    candidate (which does not exist on this filesystem, so the claim
    predicts the empty string) nor empty. -/
theorem C4_counterexample :
    (annotate_server_paths fs4 "/r" "/s" [rec4]).map FileRecord.server_path = ["/s/x/s/x"] ∧
    fs4.pathExists (specPrefixCandidate rec4.path "/r" "/s") = false ∧
    specPrefixCandidate rec4.path "/r" "/s" ≠ "/s/x/s/x" ∧
    ("/s/x/s/x" : String) ≠ "" :=
  ⟨by decide, by decide, by decide, by decide⟩

/-- C4 (amended): the candidate is `record.path.replace(sessionRawDir,
    sessionServerDir)` — every occurrence substituted, not only the prefix —
    and `server_path` becomes that candidate exactly when a filesystem entry
    exists there, the empty string otherwise; `path` and `size` are
    untouched, and a later reconciliation fully overwrites an earlier one,
    so no value from a previous server dir survives. -/
theorem C4_reconcile_replace_all (fs : FS) (sd ssd : String) (items : List FileRecord) :
    (annotate_server_paths fs sd ssd items).length = items.length ∧
    (∀ (i : Nat) (h1 : i < (annotate_server_paths fs sd ssd items).length)
        (h2 : i < items.length),
      ((annotate_server_paths fs sd ssd items).get ⟨i, h1⟩).path =
          (items.get ⟨i, h2⟩).path ∧
      ((annotate_server_paths fs sd ssd items).get ⟨i, h1⟩).size =
          (items.get ⟨i, h2⟩).size ∧
      ((annotate_server_paths fs sd ssd items).get ⟨i, h1⟩).server_path =
        (if fs.pathExists (pyReplace (items.get ⟨i, h2⟩).path sd ssd) then
          pyReplace (items.get ⟨i, h2⟩).path sd ssd else "")) ∧
    (∀ ssd1, annotate_server_paths fs sd ssd (annotate_server_paths fs sd ssd1 items) =
      annotate_server_paths fs sd ssd items) := by
  refine ⟨?_, ?_, fun ssd1 => annotate_comp fs sd ssd ssd1 items⟩
  · rw [annotate_eq_map, List.length_map]
  · intro i h1 h2
    simp [annotate_eq_map, List.get_eq_getElem, List.getElem_map]

/-- Witness for C4 (amended) at the double-occurrence record. -/
theorem C4_reconcile_replace_all_witness :
    (pyReplace rec4.path "/r" "/s" = "/s/x/s/x" ∧
      0 < (annotate_server_paths fs4 "/r" "/s" [rec4]).length) ∧
    ((annotate_server_paths fs4 "/r" "/s" [rec4]).get ⟨0, by decide⟩).server_path =
      (if fs4.pathExists (pyReplace (([rec4] : List FileRecord).get ⟨0, by decide⟩).path "/r" "/s")
        then pyReplace (([rec4] : List FileRecord).get ⟨0, by decide⟩).path "/r" "/s" else "") :=
  ⟨⟨by decide, by decide⟩,
    ((C4_reconcile_replace_all fs4 "/r" "/s" [rec4]).2.1 0 (by decide) (by decide)).2.2⟩

/-- C5 counterexample: a record whose path does not start with the session
    raw dir is not degraded to an empty `server_path`: when the raw dir does
    not occur in the path the replace is the identity, and the record's own
    (still existing) raw path passes the existence check, so `server_path`
    is set to the raw path itself, not `""`. -/
theorem C5_counterexample :
    (¬ ("/raw".data <+: rec5.path.data)) ∧
    (annotate_server_paths fs5 "/raw" "/srv" [rec5]).map FileRecord.server_path =
      ["/data/f"] ∧
    ("/data/f" : String) ≠ "" :=
  ⟨by decide, by decide, by decide⟩

/-- C5 (amended): reconciliation never raises on a record whose path does
    not start with `sessionRawDir` — the textual substitution still runs and
    `server_path` becomes the substituted candidate if it exists, else `""`;
    in particular, when the raw dir does not occur in the path at all the
    candidate is the record's own path, so a still-existing file keeps its
    raw path in `server_path` rather than the empty string. -/
theorem C5_nonmatching_path (fs : FS) (sd ssd : String) (it : FileRecord)
    (_h : ¬ (sd.data <+: it.path.data)) :
    annotate_server_paths fs sd ssd [it] =
      [{ it with server_path :=
          if fs.pathExists (pyReplace it.path sd ssd) then pyReplace it.path sd ssd
          else "" }] ∧
    (sd ≠ "" → ¬ (sd.data <:+: it.path.data) → pyReplace it.path sd ssd = it.path) := by
  constructor
  · rfl
  · intro h0 hinf
    exact pyReplace_no_occurrence it.path sd ssd h0 hinf

/-- Witness for C5 (amended) at the legacy record. -/
theorem C5_nonmatching_path_witness :
    ((¬ ("/raw".data <+: rec5.path.data)) ∧ ("/raw" : String) ≠ "" ∧
      ¬ ("/raw".data <:+: rec5.path.data)) ∧
    (annotate_server_paths fs5 "/raw" "/srv" [rec5] =
      [{ rec5 with server_path :=
          if fs5.pathExists (pyReplace rec5.path "/raw" "/srv") then
            pyReplace rec5.path "/raw" "/srv" else "" }] ∧
      pyReplace rec5.path "/raw" "/srv" = rec5.path) :=
  ⟨⟨by decide, by decide, by decide⟩,
    ⟨(C5_nonmatching_path fs5 "/raw" "/srv" rec5 (by decide)).1,
      (C5_nonmatching_path fs5 "/raw" "/srv" rec5 (by decide)).2 (by decide) (by decide)⟩⟩

/-- C6 counterexample: the reconciliation loop does not leave the input
    records unchanged while returning a fresh sequence — it assigns into the
    records of the session metadata, so the stored inventory itself differs
    after the loop (the stale `server_path` has been overwritten in place). -/
theorem C6_counterexample :
    update_server_paths fs6 "/r" "/s" meta6 ≠ meta6 ∧
    (update_server_paths fs6 "/r" "/s" meta6).file_list.map FileRecord.server_path = [""] :=
  ⟨by decide, by decide⟩

/-- C6 (amended): the reconciliation loop mutates the inventory records in
    place — the metadata's stored `file_list` after the loop is the pointwise
    recomputation of each record's `server_path` (nothing is returned) —
    touching only the `server_path` field of each record, and running the
    loop twice is the same as running it once; its only filesystem
    interaction is existence checks. -/
theorem C6_in_place_update (fs : FS) (sd ssd : String) (meta : SessionMeta) :
    (update_server_paths fs sd ssd meta).file_list =
      meta.file_list.map (fun it =>
        { it with server_path :=
            if fs.pathExists (pyReplace it.path sd ssd) then pyReplace it.path sd ssd
            else "" }) ∧
    update_server_paths fs sd ssd (update_server_paths fs sd ssd meta) =
      update_server_paths fs sd ssd meta ∧
    List.Forall₂ (fun a b => FileRecord.path a = FileRecord.path b ∧
        FileRecord.size a = FileRecord.size b)
      (update_server_paths fs sd ssd meta).file_list meta.file_list := by
  refine ⟨annotate_eq_map fs sd ssd meta.file_list, ?_, ?_⟩
  · unfold update_server_paths
    simp only [annotate_comp]
  · unfold update_server_paths
    simp only [annotate_eq_map]
    rw [List.forall₂_map_left_iff]
    exact List.forall₂_same.mpr (fun x _ => ⟨rfl, rfl⟩)

theorem all_congr_mem {α : Type} {p q : α → Bool} :
    ∀ (l : List α), (∀ a ∈ l, p a = q a) → l.all p = l.all q
  | [], _ => rfl
  | a :: l, h => by
    rw [List.all_cons, List.all_cons, h a (List.mem_cons_self a l),
      all_congr_mem l (fun x hx => h x (List.mem_cons_of_mem _ hx))]

theorem mem_of_mem_takeWhile {α : Type} {p : α → Bool} {l : List α} {a : α}
    (h : a ∈ l.takeWhile p) : a ∈ l :=
  (List.takeWhile_prefix p).subset h

/-- `Forall₂` transport along an implication that may use membership. -/
theorem forall₂_imp_mem {α β : Type} {R S : α → β → Prop} :
    ∀ {l1 : List α} {l2 : List β}, (∀ a ∈ l1, ∀ b, R a b → S a b) →
      List.Forall₂ R l1 l2 → List.Forall₂ S l1 l2 := by
  intro l1 l2 h hf
  induction hf with
  | nil => exact List.Forall₂.nil
  | cons hr _ ih =>
    exact List.Forall₂.cons (h _ (List.mem_cons_self _ _) _ hr)
      (ih (fun a ha b hb => h a (List.mem_cons_of_mem _ ha) b hb))

/-- A dead run (an exception already propagating) changes nothing. -/
theorem syncFiles_stuck (pd dp pn : String) (rel : List String) :
    ∀ (fls : List String) (st : SyncSt), st.ok = false →
      syncFiles pd dp pn rel fls st = st
  | [], _, _ => rfl
  | f :: rest, st, h => by simp [syncFiles, h]

mutual
/-- A dead run is not resumed anywhere in the subtree walk. -/
theorem syncTree_stuck (pd dp pn : String) :
    ∀ (t : DirTree) (rel : List String) (st : SyncSt), st.ok = false →
      syncTree pd dp pn t rel st = st
  | .node _ _, _, _, h => by simp [syncTree, h]

/-- A dead run is not resumed in any remaining sibling. -/
theorem syncTreeChildren_stuck (pd dp pn : String) :
    ∀ (ds : DirTreeList) (rel : List String) (st : SyncSt), st.ok = false →
      syncTreeChildren pd dp pn ds rel st = st
  | .nil, _, _, _ => rfl
  | .cons n c rest, rel, st, h => by
    rw [syncTreeChildren, syncTree_stuck pd dp pn c (rel ++ [n]) st h,
      syncTreeChildren_stuck pd dp pn rest rel st h]
end

/-- `RunSpec` for an empty walk segment. -/
theorem runSpec_nil (pd dp pn : String) (files0 : List (String × Bytes)) (log0 : List Msg)
    (st : SyncSt) (hok : st.ok = true) (hfs : st.fs.files = files0) (hlog : st.log = log0) :
    RunSpec pd dp pn [] files0 log0 st := by
  refine ⟨by simp [hok], ?_, ?_, ⟨[], by simp [hlog], by simp⟩⟩
  · intro p _
    rw [hfs]
  · intro pf hpf
    simp at hpf

/-- Composing a run over `WA` with a continuation over `WB`: if the first
    segment's run is characterised and the continuation is characterised
    whenever the first segment survived (and is the identity otherwise),
    the whole run over `WA ++ WB` is characterised. -/
theorem runSpec_comp (pd dp pn : String) (WA WB : List (List String × String))
    (files0 : List (String × Bytes)) (log0 : List Msg) (stM res : SyncSt)
    (hsep : SepHyp pd dp (WA ++ WB))
    (hA : RunSpec pd dp pn WA files0 log0 stM)
    (hB : stM.ok = true → RunSpec pd dp pn WB stM.fs.files stM.log res)
    (hstuck : stM.ok = false → res = stM) :
    RunSpec pd dp pn (WA ++ WB) files0 log0 res := by
  obtain ⟨hok, hframe, hpost, newL, hlog, hforall⟩ := hA
  cases hM : stM.ok with
  | false =>
    have hres := hstuck hM
    subst hres
    have hallA : WA.all (presentSrc pd files0) = false := by
      rw [← hok]
      exact hM
    refine ⟨?_, ?_, ?_, ⟨newL, hlog, ?_⟩⟩
    · rw [List.all_append, hallA, Bool.false_and]
      exact hM
    · rw [takeWhile_append_stop WA WB hallA]
      exact hframe
    · rw [takeWhile_append_stop WA WB hallA]
      exact hpost
    · rw [takeWhile_append_stop WA WB hallA]
      exact hforall
  | true =>
    obtain ⟨hokB, hframeB, hpostB, newLB, hlogB, hforallB⟩ := hB hM
    have hallA : WA.all (presentSrc pd files0) = true := by
      rw [← hok]
      exact hM
    have hallA' : ∀ pf ∈ WA, presentSrc pd files0 pf = true := List.all_eq_true.mp hallA
    have htwA : WA.takeWhile (presentSrc pd files0) = WA :=
      List.takeWhile_eq_self_iff.mpr hallA'
    have hpredB : ∀ pf ∈ WB, presentSrc pd stM.fs.files pf = presentSrc pd files0 pf := by
      intro pf hpf
      unfold presentSrc
      rw [hframe (srcOf pd pf) ?_]
      rw [htwA]
      intro hmem
      obtain ⟨pf2, hpf2, heq⟩ := List.mem_map.mp hmem
      exact hsep.1 pf (List.mem_append_right _ hpf) pf2 (List.mem_append_left _ hpf2)
        heq.symm
    have htwB : WB.takeWhile (presentSrc pd stM.fs.files) =
        WB.takeWhile (presentSrc pd files0) := takeWhile_congr_mem WB hpredB
    have hallB : WB.all (presentSrc pd stM.fs.files) = WB.all (presentSrc pd files0) :=
      all_congr_mem WB hpredB
    have hnd := hsep.2
    rw [List.map_append] at hnd
    have hdisj := List.disjoint_of_nodup_append hnd
    refine ⟨?_, ?_, ?_, ⟨newL ++ newLB, ?_, ?_⟩⟩
    · rw [List.all_append, hallA, Bool.true_and]
      exact hokB.trans hallB
    · intro p hp
      rw [List.takeWhile_append_of_pos hallA', List.map_append, List.mem_append] at hp
      push_neg at hp
      obtain ⟨hpA, hpB⟩ := hp
      rw [hframeB p (by rw [htwB]; exact hpB)]
      exact hframe p (by rw [htwA]; exact hpA)
    · intro pf hpf
      rw [List.takeWhile_append_of_pos hallA', List.mem_append] at hpf
      cases hpf with
      | inl hin =>
        obtain ⟨c, b, hc, hb, hlen, hd2⟩ := hpost pf (by rw [htwA]; exact hin)
        refine ⟨c, b, hc, ?_, hlen, hd2⟩
        rw [hframeB (dstOf dp pf) ?_]
        · exact hb
        · rw [htwB]
          intro hmem
          obtain ⟨pf2, hpf2, heq⟩ := List.mem_map.mp hmem
          exact hdisj (List.mem_map_of_mem _ hin)
            (heq ▸ List.mem_map_of_mem _ (mem_of_mem_takeWhile hpf2))
      | inr hin =>
        have hinB : pf ∈ WB := mem_of_mem_takeWhile hin
        obtain ⟨c, b, hc, hb, hlen, hd2⟩ := hpostB pf (by rw [htwB]; exact hin)
        have hsrc : alookup stM.fs.files (srcOf pd pf) = alookup files0 (srcOf pd pf) := by
          apply hframe
          rw [htwA]
          intro hmem
          obtain ⟨pf2, hpf2, heq⟩ := List.mem_map.mp hmem
          exact hsep.1 pf (List.mem_append_right _ hinB) pf2 (List.mem_append_left _ hpf2)
            heq.symm
        have hdst : alookup stM.fs.files (dstOf dp pf) = alookup files0 (dstOf dp pf) := by
          apply hframe
          rw [htwA]
          intro hmem
          exact hdisj hmem (List.mem_map_of_mem _ hinB)
        refine ⟨c, b, hsrc ▸ hc, hb, hlen, ?_⟩
        cases hd2 with
        | inl h2 => exact Or.inl h2
        | inr h2 => exact Or.inr (hdst ▸ h2)
    · rw [hlogB, hlog, List.append_assoc]
    · rw [List.takeWhile_append_of_pos hallA', List.filter_append]
      refine List.rel_append ?_ ?_
      · rw [← htwA]
        exact hforall
      · refine forall₂_imp_mem ?_ (htwB ▸ hforallB)
        intro pf hpf m hm
        have hinB : pf ∈ WB := mem_of_mem_takeWhile hpf
        have hsrc : alookup stM.fs.files (srcOf pd pf) = alookup files0 (srcOf pd pf) := by
          apply hframe
          rw [htwA]
          intro hmem
          obtain ⟨pf2, hpf2, heq⟩ := List.mem_map.mp hmem
          exact hsep.1 pf (List.mem_append_right _ hinB) pf2
            (List.mem_append_left _ hpf2) heq.symm
        have hdst : alookup stM.fs.files (dstOf dp pf) = alookup files0 (dstOf dp pf) := by
          apply hframe
          rw [htwA]
          intro hmem
          exact hdisj hmem (List.mem_map_of_mem _ hinB)
        have hiff : sizeMatched pd dp stM.fs.files pf ↔ sizeMatched pd dp files0 pf := by
          unfold sizeMatched
          rw [hsrc, hdst]
        exact ⟨fun hs => hm.1 (hiff.mpr hs), fun hn => hm.2 (fun hs => hn (hiff.mp hs))⟩

theorem sepHyp_append_left (pd dp : String) (WA WB : List (List String × String))
    (h : SepHyp pd dp (WA ++ WB)) : SepHyp pd dp WA := by
  refine ⟨fun pf hpf pf2 hpf2 =>
    h.1 pf (List.mem_append_left _ hpf) pf2 (List.mem_append_left _ hpf2), ?_⟩
  have h2 := h.2
  rw [List.map_append] at h2
  exact h2.of_append_left

theorem sepHyp_append_right (pd dp : String) (WA WB : List (List String × String))
    (h : SepHyp pd dp (WA ++ WB)) : SepHyp pd dp WB := by
  refine ⟨fun pf hpf pf2 hpf2 =>
    h.1 pf (List.mem_append_right _ hpf) pf2 (List.mem_append_right _ hpf2), ?_⟩
  have h2 := h.2
  rw [List.map_append] at h2
  exact h2.of_append_right

/-- Characterisation of the run over a single walked file. -/
theorem syncFiles_one_run (pd dp pn : String) (rel : List String) (f : String) (st : SyncSt)
    (hok : st.ok = true) :
    RunSpec pd dp pn [(rel, f)] st.fs.files st.log (syncFiles pd dp pn rel [f] st) := by
  cases hp : alookup st.fs.files (pjoin (joinAll pd rel) f) with
  | none =>
    have hcopy := copy_absent st.fs (pjoin (joinAll pd rel) f) (pjoin (joinAll dp rel) f) hp
    have hrun : syncFiles pd dp pn rel [f] st =
        { fs := st.fs.makedirs (dirname (pjoin (joinAll dp rel) f)), log := st.log,
          ok := false } := by
      simp [syncFiles, hok, hcopy]
    rw [hrun]
    have hpred : presentSrc pd st.fs.files (rel, f) = false := by
      simp [presentSrc, srcOf, hp]
    have htw : ([(rel, f)] : List (List String × String)).takeWhile
        (presentSrc pd st.fs.files) = [] :=
      List.takeWhile_cons_of_neg (by simp [hpred])
    refine ⟨by simp [hpred], ?_, ?_, ⟨[], by simp, ?_⟩⟩
    · intro p _
      exact makedirs_files st.fs _ ▸ rfl
    · intro pf hpf
      rw [htw] at hpf
      simp at hpf
    · rw [htw]
      simp
  | some c =>
    obtain ⟨fs1, performed, bps, msgs, hcopy, hfilter, hframe1, hcases⟩ :=
      copy_present st.fs (pjoin (joinAll pd rel) f) (pjoin (joinAll dp rel) f) c hp
    have hrun : syncFiles pd dp pn rel [f] st =
        { fs := fs1,
          log := st.log ++ msgs ++ [if performed then
            Msg.copiedSummary (relStr pn rel f) bps
          else Msg.alreadySummary (relStr pn rel f)], ok := true } := by
      simp [syncFiles, hok, hcopy]
    rw [hrun]
    have hpred : presentSrc pd st.fs.files (rel, f) = true := by
      simp [presentSrc, srcOf, hp]
    have htw : ([(rel, f)] : List (List String × String)).takeWhile
        (presentSrc pd st.fs.files) = [(rel, f)] := by
      rw [List.takeWhile_cons_of_pos hpred]
      rfl
    refine ⟨by simp [hpred], ?_, ?_, ?_⟩
    · intro p hp2
      rw [htw] at hp2
      simp at hp2
      exact hframe1 p hp2
    · intro pf hpf
      rw [htw] at hpf
      simp at hpf
      subst hpf
      cases hcases with
      | inl hc =>
        refine ⟨c, (chunksOf COPY_CHUNK_BYTES c).flatten, hp, hc.2.1, ?_, Or.inl rfl⟩
        rw [chunksOf_flatten COPY_CHUNK_BYTES (by norm_num [COPY_CHUNK_BYTES]) c]
      | inr hc =>
        obtain ⟨_, hfiles, b, hb, hlen⟩ := hc
        refine ⟨c, b, hp, ?_, hlen, Or.inr hb⟩
        rw [hfiles]
        exact hb
    · refine ⟨msgs ++ [if performed then Msg.copiedSummary (relStr pn rel f) bps
        else Msg.alreadySummary (relStr pn rel f)], by simp, ?_⟩
      rw [htw, List.filter_append, hfilter, List.nil_append]
      have hsum : Msg.isSummary (if performed then Msg.copiedSummary (relStr pn rel f) bps
          else Msg.alreadySummary (relStr pn rel f)) = true := by
        cases performed <;> simp [Msg.isSummary]
      rw [List.filter_cons, if_pos hsum]
      refine List.Forall₂.cons ?_ List.Forall₂.nil
      unfold summMatch
      cases hcases with
      | inl hc =>
        obtain ⟨hperf, _, hnot⟩ := hc
        subst hperf
        constructor
        · intro hs
          exfalso
          apply hnot
          obtain ⟨c2, b, hc2, hb, hlen⟩ := hs
          have hc2' : alookup st.fs.files (pjoin (joinAll pd rel) f) = some c2 := hc2
          rw [hp] at hc2'
          injection hc2' with hcc
          subst hcc
          exact ⟨b, hb, hlen⟩
        · intro _
          exact ⟨bps, by simp⟩
      | inr hc =>
        obtain ⟨hperf, _, b, hb, hlen⟩ := hc
        subst hperf
        constructor
        · intro _
          simp
        · intro hn
          exfalso
          exact hn ⟨c, b, hp, hb, hlen⟩

/-- Processing the file list one file at a time. -/
theorem syncFiles_cons (pd dp pn : String) (rel : List String) (f : String)
    (rest : List String) (st : SyncSt) :
    syncFiles pd dp pn rel (f :: rest) st =
      syncFiles pd dp pn rel rest (syncFiles pd dp pn rel [f] st) := by
  cases hok : st.ok with
  | false =>
    rw [syncFiles_stuck pd dp pn rel (f :: rest) st hok,
      syncFiles_stuck pd dp pn rel [f] st hok,
      syncFiles_stuck pd dp pn rel rest st hok]
  | true =>
    cases hcopy : copy_with_progress st.fs (pjoin (joinAll pd rel) f)
        (pjoin (joinAll dp rel) f) with
    | err fs1 =>
      simp only [syncFiles, hok, if_pos rfl, hcopy]
      rw [syncFiles_stuck pd dp pn rel rest _ rfl]
    | ok fs1 performed bps msgs =>
      simp only [syncFiles, hok, if_pos rfl, hcopy]
      simp

/-- Characterisation of the run over the file list of one directory. -/
theorem syncFiles_run (pd dp pn : String) (rel : List String) :
    ∀ (fls : List String) (st : SyncSt), st.ok = true →
      SepHyp pd dp (fls.map (fun f => (rel, f))) →
      RunSpec pd dp pn (fls.map (fun f => (rel, f))) st.fs.files st.log
        (syncFiles pd dp pn rel fls st)
  | [], st, hok, _ => runSpec_nil pd dp pn st.fs.files st.log st hok rfl rfl
  | f :: rest, st, hok, hsep => by
    rw [syncFiles_cons]
    refine runSpec_comp pd dp pn [(rel, f)] (rest.map (fun f => (rel, f))) st.fs.files
      st.log (syncFiles pd dp pn rel [f] st) _ hsep
      (syncFiles_one_run pd dp pn rel f st hok) ?_ ?_
    · intro hokM
      exact syncFiles_run pd dp pn rel rest (syncFiles pd dp pn rel [f] st) hokM
        (sepHyp_append_right pd dp [(rel, f)] (rest.map (fun f => (rel, f))) hsep)
    · intro hokM
      exact syncFiles_stuck pd dp pn rel rest _ hokM

mutual
/-- Characterisation of the walk of one subtree. -/
theorem syncTree_run (pd dp pn : String) :
    ∀ (t : DirTree) (rel : List String) (st : SyncSt), st.ok = true →
      SepHyp pd dp (t.walkFilesFrom rel) →
      RunSpec pd dp pn (t.walkFilesFrom rel) st.fs.files st.log
        (syncTree pd dp pn t rel st)
  | .node ds fls, rel, st, hok, hsep => by
    have hrun : syncTree pd dp pn (.node ds fls) rel st =
        syncTreeChildren pd dp pn ds rel
          (syncFiles pd dp pn rel fls
            { st with fs := mkChildDirs (joinAll dp rel) ds (st.fs.makedirs (joinAll dp rel)) }) := by
      simp [syncTree, hok]
    rw [hrun]
    refine runSpec_comp pd dp pn (fls.map (fun f => (rel, f)))
      (DirTreeList.walkFilesFrom ds rel) st.fs.files st.log
      (syncFiles pd dp pn rel fls
        { st with fs := mkChildDirs (joinAll dp rel) ds (st.fs.makedirs (joinAll dp rel)) })
      _ hsep ?_ ?_ ?_
    · have hA := syncFiles_run pd dp pn rel fls
        { st with fs := mkChildDirs (joinAll dp rel) ds (st.fs.makedirs (joinAll dp rel)) }
        hok (sepHyp_append_left pd dp (fls.map (fun f => (rel, f)))
          (DirTreeList.walkFilesFrom ds rel) hsep)
      simp only [mkChildDirs_files, makedirs_files] at hA
      exact hA
    · intro hokM
      exact syncTreeChildren_run pd dp pn ds rel _ hokM
        (sepHyp_append_right pd dp (fls.map (fun f => (rel, f)))
          (DirTreeList.walkFilesFrom ds rel) hsep)
    · intro hokM
      exact syncTreeChildren_stuck pd dp pn ds rel _ hokM

/-- Characterisation of the walk of a list of subdirectory entries. -/
theorem syncTreeChildren_run (pd dp pn : String) :
    ∀ (ds : DirTreeList) (rel : List String) (st : SyncSt), st.ok = true →
      SepHyp pd dp (DirTreeList.walkFilesFrom ds rel) →
      RunSpec pd dp pn (DirTreeList.walkFilesFrom ds rel) st.fs.files st.log
        (syncTreeChildren pd dp pn ds rel st)
  | .nil, rel, st, hok, _ => runSpec_nil pd dp pn st.fs.files st.log st hok rfl rfl
  | .cons n c rest, rel, st, hok, hsep => by
    rw [syncTreeChildren]
    refine runSpec_comp pd dp pn (DirTree.walkFilesFrom c (rel ++ [n]))
      (DirTreeList.walkFilesFrom rest rel) st.fs.files st.log
      (syncTree pd dp pn c (rel ++ [n]) st) _ hsep
      (syncTree_run pd dp pn c (rel ++ [n]) st hok
        (sepHyp_append_left pd dp (DirTree.walkFilesFrom c (rel ++ [n]))
          (DirTreeList.walkFilesFrom rest rel) hsep)) ?_ ?_
    · intro hokM
      exact syncTreeChildren_run pd dp pn rest rel _ hokM
        (sepHyp_append_right pd dp (DirTree.walkFilesFrom c (rel ++ [n]))
          (DirTreeList.walkFilesFrom rest rel) hsep)
    · intro hokM
      exact syncTreeChildren_stuck pd dp pn rest rel _ hokM
end

/-- Characterisation of a whole `sync_project_to_server` run. -/
theorem sync_project_run (t : DirTree) (pd sr : String) (fs0 : FS)
    (hsep : SepHyp pd (dst_project_of pd sr) t.walkFiles) :
    RunSpec pd (dst_project_of pd sr) (basename (rstripSeps pd)) t.walkFiles fs0.files []
      (sync_project_to_server t pd sr fs0) := by
  have h := syncTree_run pd (dst_project_of pd sr) (basename (rstripSeps pd)) t []
    { fs := fs0.makedirs (dst_project_of pd sr), log := [], ok := true } rfl hsep
  simp only [makedirs_files] at h
  exact h

/-- A file loop in which every file already has a size-equal destination
    copies nothing: same file table, and one "already on server" line per
    file is appended. -/
theorem syncFiles_skip (pd dp pn : String) (rel : List String) :
    ∀ (fls : List String) (st : SyncSt), st.ok = true →
      SkipHyp pd dp st.fs.files (fls.map (fun f => (rel, f))) →
      (syncFiles pd dp pn rel fls st).ok = true ∧
      (syncFiles pd dp pn rel fls st).fs.files = st.fs.files ∧
      (syncFiles pd dp pn rel fls st).log =
        st.log ++ fls.map (fun f => Msg.alreadySummary (relStr pn rel f))
  | [], st, hok, _ => ⟨hok, rfl, by simp [syncFiles]⟩
  | f :: rest, st, hok, hskip => by
    obtain ⟨c, b, hc, hb, hlen⟩ := hskip (rel, f) (by simp)
    have hcopy := copy_skip st.fs (pjoin (joinAll pd rel) f) (pjoin (joinAll dp rel) f)
      c b hc hb hlen
    have hrun : syncFiles pd dp pn rel (f :: rest) st =
        syncFiles pd dp pn rel rest
          { fs := st.fs.makedirs (dirname (pjoin (joinAll dp rel) f)),
            log := st.log ++ [Msg.alreadySummary (relStr pn rel f)], ok := true } := by
      simp [syncFiles, hok, hcopy]
    rw [hrun]
    have hihSkip : SkipHyp pd dp
        (st.fs.makedirs (dirname (pjoin (joinAll dp rel) f))).files
        (rest.map (fun f => (rel, f))) := by
      rw [makedirs_files]
      intro pf hpf
      refine hskip pf ?_
      simp at hpf ⊢
      exact Or.inr hpf
    obtain ⟨h1, h2, h3⟩ := syncFiles_skip pd dp pn rel rest
      { fs := st.fs.makedirs (dirname (pjoin (joinAll dp rel) f)), log := st.log ++ [Msg.alreadySummary (relStr pn rel f)], ok := true }
      rfl (by exact hihSkip)
    refine ⟨h1, ?_, ?_⟩
    · rw [h2, makedirs_files]
    · rw [h3]
      simp

mutual
/-- A subtree walk in which every file already has a size-equal destination
    copies nothing and logs exactly the "already on server" lines. -/
theorem syncTree_skip (pd dp pn : String) :
    ∀ (t : DirTree) (rel : List String) (st : SyncSt), st.ok = true →
      SkipHyp pd dp st.fs.files (t.walkFilesFrom rel) →
      (syncTree pd dp pn t rel st).ok = true ∧
      (syncTree pd dp pn t rel st).fs.files = st.fs.files ∧
      (syncTree pd dp pn t rel st).log =
        st.log ++ (t.walkFilesFrom rel).map
          (fun pf => Msg.alreadySummary (relStr pn pf.1 pf.2))
  | .node ds fls, rel, st, hok, hskip => by
    have hrun : syncTree pd dp pn (.node ds fls) rel st =
        syncTreeChildren pd dp pn ds rel
          (syncFiles pd dp pn rel fls
            { st with fs := mkChildDirs (joinAll dp rel) ds (st.fs.makedirs (joinAll dp rel)) }) := by
      simp [syncTree, hok]
    rw [hrun]
    have hskipF : SkipHyp pd dp
        (mkChildDirs (joinAll dp rel) ds (st.fs.makedirs (joinAll dp rel))).files
        (fls.map (fun f => (rel, f))) := by
      rw [mkChildDirs_files, makedirs_files]
      intro pf hpf
      exact hskip pf (List.mem_append_left _ hpf)
    obtain ⟨h1, h2, h3⟩ := syncFiles_skip pd dp pn rel fls
      { st with fs := mkChildDirs (joinAll dp rel) ds (st.fs.makedirs (joinAll dp rel)) }
      hok hskipF
    have h2' : (syncFiles pd dp pn rel fls
        { st with fs := mkChildDirs (joinAll dp rel) ds (st.fs.makedirs (joinAll dp rel)) }).fs.files =
        st.fs.files := by
      rw [h2]
      simp only [mkChildDirs_files, makedirs_files]
    have hskipC : SkipHyp pd dp
        (syncFiles pd dp pn rel fls
          { st with fs := mkChildDirs (joinAll dp rel) ds (st.fs.makedirs (joinAll dp rel)) }).fs.files
        (DirTreeList.walkFilesFrom ds rel) := by
      rw [h2']
      intro pf hpf
      exact hskip pf (List.mem_append_right _ hpf)
    obtain ⟨h4, h5, h6⟩ := syncTreeChildren_skip pd dp pn ds rel _ h1 hskipC
    refine ⟨h4, ?_, ?_⟩
    · rw [h5, h2']
    · rw [h6, h3]
      show _ = _ ++ List.map _ (fls.map (fun f => (rel, f)) ++ DirTreeList.walkFilesFrom ds rel)
      rw [List.map_append, List.map_map, List.append_assoc]
      rfl

/-- The sibling walk under the same all-skip hypothesis. -/
theorem syncTreeChildren_skip (pd dp pn : String) :
    ∀ (ds : DirTreeList) (rel : List String) (st : SyncSt), st.ok = true →
      SkipHyp pd dp st.fs.files (DirTreeList.walkFilesFrom ds rel) →
      (syncTreeChildren pd dp pn ds rel st).ok = true ∧
      (syncTreeChildren pd dp pn ds rel st).fs.files = st.fs.files ∧
      (syncTreeChildren pd dp pn ds rel st).log =
        st.log ++ (DirTreeList.walkFilesFrom ds rel).map
          (fun pf => Msg.alreadySummary (relStr pn pf.1 pf.2))
  | .nil, rel, st, hok, _ => ⟨hok, rfl, by simp [syncTreeChildren, DirTreeList.walkFilesFrom]⟩
  | .cons n c rest, rel, st, hok, hskip => by
    rw [syncTreeChildren]
    obtain ⟨h1, h2, h3⟩ := syncTree_skip pd dp pn c (rel ++ [n]) st hok
      (fun pf hpf => hskip pf (List.mem_append_left _ hpf))
    have hskipR : SkipHyp pd dp (syncTree pd dp pn c (rel ++ [n]) st).fs.files
        (DirTreeList.walkFilesFrom rest rel) := by
      rw [h2]
      intro pf hpf
      exact hskip pf (List.mem_append_right _ hpf)
    obtain ⟨h4, h5, h6⟩ := syncTreeChildren_skip pd dp pn rest rel _ h1 hskipR
    refine ⟨h4, ?_, ?_⟩
    · rw [h5, h2]
    · rw [h6, h3]
      show _ = _ ++ List.map _ (DirTree.walkFilesFrom c (rel ++ [n]) ++ DirTreeList.walkFilesFrom rest rel)
      rw [List.map_append, List.append_assoc]
end

/-- C1 counterexample: a successful mirror run over a tree whose single file
    already has a size-equal destination of different byte content leaves
    that different content in place — the destination is not byte-identical
    to the source, only size-identical. -/
theorem C1_counterexample :
    (sync_project_to_server tree1 "P" "S" fs1cex).ok = true ∧
    ([], "f") ∈ tree1.walkFiles ∧
    alookup (sync_project_to_server tree1 "P" "S" fs1cex).fs.files
      (dstOf (dst_project_of "P" "S") ([], "f")) = some [1] ∧
    alookup fs1cex.files (srcOf "P" ([], "f")) = some [0] ∧
    ([1] : Bytes) ≠ [0] :=
  ⟨by decide, by decide, by decide, by decide, by decide⟩

/-- C1 (amended): after a successful mirror run, every file of the source
    tree has a destination file of identical byte size at the mirrored
    relative path under the server root; a file that was actually copied is
    byte-identical, the copy being the in-order concatenation of the
    successive fixed-size 4 MiB reads of the source; a file skipped because
    a size-equal destination already existed keeps that destination's
    previous bytes.  The hypotheses state that the tree is a real directory
    snapshot whose sources exist and whose mirror lives outside it. -/
theorem C1_mirror_completeness (t : DirTree) (pd sr : String) (fs0 : FS)
    (hpres : ∀ pf ∈ t.walkFiles, (alookup fs0.files (srcOf pd pf)).isSome = true)
    (hsep : SepHyp pd (dst_project_of pd sr) t.walkFiles) :
    (sync_project_to_server t pd sr fs0).ok = true ∧
    ∀ pf ∈ t.walkFiles, ∃ c b,
      alookup fs0.files (srcOf pd pf) = some c ∧
      alookup (sync_project_to_server t pd sr fs0).fs.files
        (dstOf (dst_project_of pd sr) pf) = some b ∧
      b.length = c.length ∧
      (chunksOf COPY_CHUNK_BYTES c).flatten = c ∧
      (∀ ch ∈ chunksOf COPY_CHUNK_BYTES c, ch ≠ [] ∧ ch.length ≤ COPY_CHUNK_BYTES) ∧
      (b = (chunksOf COPY_CHUNK_BYTES c).flatten ∨
        alookup fs0.files (dstOf (dst_project_of pd sr) pf) = some b) := by
  obtain ⟨hok, hframe, hpost, newL, hlog, hforall⟩ := sync_project_run t pd sr fs0 hsep
  have hall : t.walkFiles.all (presentSrc pd fs0.files) = true :=
    List.all_eq_true.mpr (fun pf hpf => hpres pf hpf)
  have htw : t.walkFiles.takeWhile (presentSrc pd fs0.files) = t.walkFiles :=
    List.takeWhile_eq_self_iff.mpr (List.all_eq_true.mp hall)
  refine ⟨by rw [hok, hall], ?_⟩
  intro pf hpf
  obtain ⟨c, b, hc, hb, hlen, hd⟩ := hpost pf (by rw [htw]; exact hpf)
  exact ⟨c, b, hc, hb, hlen,
    chunksOf_flatten COPY_CHUNK_BYTES (by norm_num [COPY_CHUNK_BYTES]) c,
    fun ch hch => chunksOf_mem COPY_CHUNK_BYTES c ch hch, hd⟩

/-- Witness for C1 (amended) on a two-file tree with a subdirectory. -/
theorem C1_mirror_completeness_witness :
    ((∀ pf ∈ tree1w.walkFiles, (alookup fs1w.files (srcOf "P" pf)).isSome = true) ∧
      SepHyp "P" (dst_project_of "P" "S") tree1w.walkFiles) ∧
    ((sync_project_to_server tree1w "P" "S" fs1w).ok = true ∧
      ∀ pf ∈ tree1w.walkFiles, ∃ c b,
        alookup fs1w.files (srcOf "P" pf) = some c ∧
        alookup (sync_project_to_server tree1w "P" "S" fs1w).fs.files
          (dstOf (dst_project_of "P" "S") pf) = some b ∧
        b.length = c.length ∧
        (chunksOf COPY_CHUNK_BYTES c).flatten = c ∧
        (∀ ch ∈ chunksOf COPY_CHUNK_BYTES c, ch ≠ [] ∧ ch.length ≤ COPY_CHUNK_BYTES) ∧
        (b = (chunksOf COPY_CHUNK_BYTES c).flatten ∨
          alookup fs1w.files (dstOf (dst_project_of "P" "S") pf) = some b)) :=
  ⟨⟨by decide, ⟨by decide, by decide⟩⟩,
    C1_mirror_completeness tree1w "P" "S" fs1w (by decide) ⟨by decide, by decide⟩⟩

/-- C7 counterexample: the terminal summary line for a skipped file is
    "✓ Already on server: <rel>", not the claim's "Already on server: <rel>"
    — every summary line carries the "✓ " prefix. -/
theorem C7_counterexample :
    (sync_project_to_server tree1 "P" "S" fs1cex).log = [Msg.alreadySummary "P/f"] ∧
    Msg.render (Msg.alreadySummary "P/f") = "✓ Already on server: P/f" ∧
    Msg.render (Msg.alreadySummary "P/f") ≠ "Already on server: P/f" :=
  ⟨by decide, by decide, by decide⟩

/-- C7 (amended): for every file encountered during the walk the mirror
    emits exactly one terminal summary log line, in walk order, whose text
    is tied to the file's outcome: under the run hypotheses a file is
    skipped exactly when a size-equal destination file already existed at
    the start of the run (`sizeMatched`), and then — and only then — its
    summary reads "✓ Already on server: <relative-dest-path>"; a copied
    file's summary reads "✓ Copied to server at <relative-dest-path> @
    <rate> MB/s". -/
theorem C7_one_summary_per_file (t : DirTree) (pd sr : String) (fs0 : FS)
    (hpres : ∀ pf ∈ t.walkFiles, (alookup fs0.files (srcOf pd pf)).isSome = true)
    (hsep : SepHyp pd (dst_project_of pd sr) t.walkFiles) :
    List.Forall₂ (fun pf m =>
        Msg.isSummary m = true ∧
        (sizeMatched pd (dst_project_of pd sr) fs0.files pf →
          Msg.render m =
            "✓ Already on server: " ++ relStr (basename (rstripSeps pd)) pf.1 pf.2) ∧
        (¬ sizeMatched pd (dst_project_of pd sr) fs0.files pf →
          ∃ r, Msg.render m =
            "✓ Copied to server at " ++ relStr (basename (rstripSeps pd)) pf.1 pf.2
              ++ " @ " ++ fmt2 (r / (1024 * 1024)) ++ " MB/s"))
      t.walkFiles
      ((sync_project_to_server t pd sr fs0).log.filter Msg.isSummary) := by
  obtain ⟨hok, hframe, hpost, newL, hlog, hforall⟩ := sync_project_run t pd sr fs0 hsep
  have hall : t.walkFiles.all (presentSrc pd fs0.files) = true :=
    List.all_eq_true.mpr (fun pf hpf => hpres pf hpf)
  have htw : t.walkFiles.takeWhile (presentSrc pd fs0.files) = t.walkFiles :=
    List.takeWhile_eq_self_iff.mpr (List.all_eq_true.mp hall)
  rw [htw] at hforall
  have hlog2 : (sync_project_to_server t pd sr fs0).log.filter Msg.isSummary =
      newL.filter Msg.isSummary := by
    rw [hlog]
    simp
  rw [hlog2]
  refine List.Forall₂.imp ?_ hforall
  intro pf m hm
  by_cases hs : sizeMatched pd (dst_project_of pd sr) fs0.files pf
  · have hm1 := hm.1 hs
    subst hm1
    exact ⟨rfl, fun _ => rfl, fun hn => absurd hs hn⟩
  · obtain ⟨r, hr⟩ := hm.2 hs
    subst hr
    exact ⟨rfl, fun hs2 => absurd hs2 hs, fun _ => ⟨r, rfl⟩⟩

/-- Witness for C7 (amended) on the two-file tree, whose files have no
    pre-existing destinations (so both summaries are copied-lines). -/
theorem C7_one_summary_per_file_witness :
    ((∀ pf ∈ tree1w.walkFiles, (alookup fs1w.files (srcOf "P" pf)).isSome = true) ∧
      SepHyp "P" (dst_project_of "P" "S") tree1w.walkFiles) ∧
    List.Forall₂ (fun pf m =>
        Msg.isSummary m = true ∧
        (sizeMatched "P" (dst_project_of "P" "S") fs1w.files pf →
          Msg.render m =
            "✓ Already on server: " ++ relStr (basename (rstripSeps "P")) pf.1 pf.2) ∧
        (¬ sizeMatched "P" (dst_project_of "P" "S") fs1w.files pf →
          ∃ r, Msg.render m =
            "✓ Copied to server at " ++ relStr (basename (rstripSeps "P")) pf.1 pf.2
              ++ " @ " ++ fmt2 (r / (1024 * 1024)) ++ " MB/s"))
      tree1w.walkFiles
      ((sync_project_to_server tree1w "P" "S" fs1w).log.filter Msg.isSummary) :=
  ⟨⟨by decide, ⟨by decide, by decide⟩⟩,
    C7_one_summary_per_file tree1w "P" "S" fs1w (by decide) ⟨by decide, by decide⟩⟩

theorem copystat_dirs (fs : FS) (s d : String) : (fs.copystat s d).dirs = fs.dirs := by
  unfold FS.copystat
  split
  · rfl
  · cases alookup fs.mtimes s <;> rfl

/-- C2: running the mirror twice with no source change performs zero copies
    on the second run — the file table is unchanged, the second run's log is
    exactly one "already on server" line per walked file, and no
    copied-summary line (a `performed = true` outcome) appears in it. -/
theorem C2_idempotent (t : DirTree) (pd sr : String) (fs0 : FS)
    (hpres : ∀ pf ∈ t.walkFiles, (alookup fs0.files (srcOf pd pf)).isSome = true)
    (hsep : SepHyp pd (dst_project_of pd sr) t.walkFiles) :
    (sync_project_to_server t pd sr (sync_project_to_server t pd sr fs0).fs).ok = true ∧
    (sync_project_to_server t pd sr (sync_project_to_server t pd sr fs0).fs).fs.files =
      (sync_project_to_server t pd sr fs0).fs.files ∧
    (sync_project_to_server t pd sr (sync_project_to_server t pd sr fs0).fs).log =
      t.walkFiles.map
        (fun pf => Msg.alreadySummary (relStr (basename (rstripSeps pd)) pf.1 pf.2)) ∧
    (∀ rel r, Msg.copiedSummary rel r ∉
      (sync_project_to_server t pd sr (sync_project_to_server t pd sr fs0).fs).log) := by
  obtain ⟨hok, hframe, hpost, newL, hlog, hforall⟩ := sync_project_run t pd sr fs0 hsep
  have hall : t.walkFiles.all (presentSrc pd fs0.files) = true :=
    List.all_eq_true.mpr (fun pf hpf => hpres pf hpf)
  have htw : t.walkFiles.takeWhile (presentSrc pd fs0.files) = t.walkFiles :=
    List.takeWhile_eq_self_iff.mpr (List.all_eq_true.mp hall)
  have hskip : SkipHyp pd (dst_project_of pd sr)
      (sync_project_to_server t pd sr fs0).fs.files t.walkFiles := by
    intro pf hpf
    obtain ⟨c, b, hc, hb, hlen, _⟩ := hpost pf (by rw [htw]; exact hpf)
    have hsrc : alookup (sync_project_to_server t pd sr fs0).fs.files (srcOf pd pf) =
        some c := by
      rw [hframe (srcOf pd pf) ?_]
      · exact hc
      · rw [htw]
        intro hmem
        obtain ⟨pf2, hpf2, heq⟩ := List.mem_map.mp hmem
        exact hsep.1 pf hpf pf2 hpf2 heq.symm
    exact ⟨c, b, hsrc, hb, hlen⟩
  have hskipM : SkipHyp pd (dst_project_of pd sr)
      ((sync_project_to_server t pd sr fs0).fs.makedirs (dst_project_of pd sr)).files
      t.walkFiles := by
    rw [makedirs_files]
    exact hskip
  obtain ⟨s1, s2, s3⟩ := syncTree_skip pd (dst_project_of pd sr) (basename (rstripSeps pd))
    t []
    { fs := (sync_project_to_server t pd sr fs0).fs.makedirs (dst_project_of pd sr),
      log := [], ok := true } rfl hskipM
  have hunfold : sync_project_to_server t pd sr (sync_project_to_server t pd sr fs0).fs =
      syncTree pd (dst_project_of pd sr) (basename (rstripSeps pd)) t []
        { fs := (sync_project_to_server t pd sr fs0).fs.makedirs (dst_project_of pd sr),
          log := [], ok := true } := rfl
  rw [hunfold]
  refine ⟨s1, ?_, ?_, ?_⟩
  · rw [s2]
    simp only [makedirs_files]
  · rw [s3]
    simp [DirTree.walkFiles]
  · intro rel r hmem
    rw [s3] at hmem
    simp only [List.nil_append, List.mem_map] at hmem
    obtain ⟨pf, _, heq⟩ := hmem
    exact Msg.noConfusion heq

/-- Witness for C2 on the two-file tree. -/
theorem C2_idempotent_witness :
    ((∀ pf ∈ tree1w.walkFiles, (alookup fs1w.files (srcOf "P" pf)).isSome = true) ∧
      SepHyp "P" (dst_project_of "P" "S") tree1w.walkFiles) ∧
    ((sync_project_to_server tree1w "P" "S"
        (sync_project_to_server tree1w "P" "S" fs1w).fs).ok = true ∧
      (sync_project_to_server tree1w "P" "S"
        (sync_project_to_server tree1w "P" "S" fs1w).fs).fs.files =
        (sync_project_to_server tree1w "P" "S" fs1w).fs.files ∧
      (sync_project_to_server tree1w "P" "S"
        (sync_project_to_server tree1w "P" "S" fs1w).fs).log =
        tree1w.walkFiles.map
          (fun pf => Msg.alreadySummary (relStr (basename (rstripSeps "P")) pf.1 pf.2)) ∧
      (∀ rel r, Msg.copiedSummary rel r ∉
        (sync_project_to_server tree1w "P" "S"
          (sync_project_to_server tree1w "P" "S" fs1w).fs).log)) :=
  ⟨⟨by decide, ⟨by decide, by decide⟩⟩,
    C2_idempotent tree1w "P" "S" fs1w (by decide) ⟨by decide, by decide⟩⟩

theorem copy_eq_skip (fs : FS) (src dst : String)
    (hnc : needs_copy (fs.makedirs (dirname dst)) src dst = false) :
    copy_with_progress fs src dst = .ok (fs.makedirs (dirname dst)) false 0 [] := by
  simp [copy_with_progress, hnc]

theorem copy_eq_of_copied (fs : FS) (src dst : String) (c : Bytes)
    (hs : alookup fs.files src = some c)
    (hnc : needs_copy (fs.makedirs (dirname dst)) src dst = true) :
    copy_with_progress fs src dst = .ok
      (((fs.makedirs (dirname dst)).writeFile dst
        ((chunksOf COPY_CHUNK_BYTES c).flatten)).copystat src dst)
      true
      (bpsOf c.length ((fs.makedirs (dirname dst)).elapsedAt src
        ((chunksOf COPY_CHUNK_BYTES c).length + 1)))
      (progressMsgs (fs.makedirs (dirname dst)) src c) := by
  have hsM : alookup (fs.makedirs (dirname dst)).files src = some c := by
    rw [makedirs_files]
    exact hs
  simp [copy_with_progress, hnc, hsM]

/-- Whether `shutil.copystat` would fail is invisible to the caller of
    `copy_with_progress`: the error/success outcome, the `(performed, bps)`
    pair, the progress lines, and the resulting file table and directory set
    do not depend on the set of destinations on which `copystat` raises. -/
theorem copy_obs_copystatFails (fs : FS) (src dst : String) (S : List String) :
    CopyRes.obs (copy_with_progress { fs with copystatFails := S } src dst) =
    CopyRes.obs (copy_with_progress fs src dst) := by
  have hcomm : FS.makedirs { fs with copystatFails := S } (dirname dst) =
      { fs.makedirs (dirname dst) with copystatFails := S } := by
    unfold FS.makedirs
    by_cases hgp : dirname dst ∈ fs.dirs
    · simp [hgp]
    · simp [hgp]
  cases hp : alookup fs.files src with
  | none =>
    have h1 : copy_with_progress { fs with copystatFails := S } src dst =
        .err (FS.makedirs { fs with copystatFails := S } (dirname dst)) :=
      copy_absent _ src dst hp
    have h2 : copy_with_progress fs src dst = .err (fs.makedirs (dirname dst)) :=
      copy_absent fs src dst hp
    rw [h1, h2, hcomm]
    rfl
  | some c =>
    by_cases hnc : needs_copy (fs.makedirs (dirname dst)) src dst = true
    · have hncS : needs_copy
          (FS.makedirs { fs with copystatFails := S } (dirname dst)) src dst = true := by
        rw [hcomm]
        exact hnc
      have h1 := copy_eq_of_copied { fs with copystatFails := S } src dst c hp hncS
      have h2 := copy_eq_of_copied fs src dst c hp hnc
      rw [h1, h2, hcomm]
      unfold CopyRes.obs
      simp only [copystat_files, copystat_dirs]
      rfl
    · have hnc2 : needs_copy (fs.makedirs (dirname dst)) src dst = false := by
        cases h : needs_copy (fs.makedirs (dirname dst)) src dst
        · rfl
        · exact absurd h hnc
      have hncS : needs_copy
          (FS.makedirs { fs with copystatFails := S } (dirname dst)) src dst = false := by
        rw [hcomm]
        exact hnc2
      have h1 := copy_eq_skip { fs with copystatFails := S } src dst hncS
      have h2 := copy_eq_skip fs src dst hnc2
      rw [h1, h2, hcomm]
      rfl

/-- C9: (a) an exception while reading during one file's copy propagates out
    of the whole run — the walk does not catch it, so the run ends with the
    failing file: exactly the earlier files got summary lines, and the
    destinations of the failing file and of every later file are untouched;
    (b) by contrast, a metadata-copy (`copystat`) failure after a successful
    content copy is invisible to the run — ignored, never fatal. -/
theorem C9_failure_semantics :
    (∀ (t : DirTree) (pd sr : String) (fs0 : FS)
        (pre : List (List String × String)) (bad : List String × String)
        (post : List (List String × String)),
      t.walkFiles = pre ++ bad :: post →
      (∀ pf ∈ pre, (alookup fs0.files (srcOf pd pf)).isSome = true) →
      alookup fs0.files (srcOf pd bad) = none →
      SepHyp pd (dst_project_of pd sr) t.walkFiles →
      (sync_project_to_server t pd sr fs0).ok = false ∧
      ((sync_project_to_server t pd sr fs0).log.filter Msg.isSummary).length =
        pre.length ∧
      (∀ pf ∈ bad :: post,
        alookup (sync_project_to_server t pd sr fs0).fs.files
          (dstOf (dst_project_of pd sr) pf) =
        alookup fs0.files (dstOf (dst_project_of pd sr) pf))) ∧
    (∀ (fs : FS) (src dst : String) (S : List String),
      CopyRes.obs (copy_with_progress { fs with copystatFails := S } src dst) =
      CopyRes.obs (copy_with_progress fs src dst)) := by
  refine ⟨?_, copy_obs_copystatFails⟩
  intro t pd sr fs0 pre bad post hsplit hpre hbad hsep
  obtain ⟨hok, hframe, hpost, newL, hlog, hforall⟩ := sync_project_run t pd sr fs0 hsep
  have hpredbad : presentSrc pd fs0.files bad = false := by
    simp [presentSrc, hbad]
  have htw : t.walkFiles.takeWhile (presentSrc pd fs0.files) = pre := by
    rw [hsplit]
    exact takeWhile_split pre bad post (fun a ha => hpre a ha) hpredbad
  refine ⟨?_, ?_, ?_⟩
  · rw [hok, hsplit]
    simp [hpredbad]
  · have hlen := List.Forall₂.length_eq hforall
    rw [htw] at hlen
    rw [hlog]
    simpa using hlen.symm
  · intro pf hpf
    apply hframe
    rw [htw]
    intro hmem
    have hnd := hsep.2
    rw [hsplit, List.map_append] at hnd
    exact List.disjoint_of_nodup_append hnd hmem (List.mem_map_of_mem _ hpf)

/-- Witness for C9: a three-file directory whose middle source vanished. -/
theorem C9_failure_semantics_witness :
    (tree9.walkFiles = [([], "a")] ++ ([], "b") :: [([], "c")] ∧
      (∀ pf ∈ [(([] : List String), "a")],
        (alookup fs9.files (srcOf "P" pf)).isSome = true) ∧
      alookup fs9.files (srcOf "P" ([], "b")) = none ∧
      SepHyp "P" (dst_project_of "P" "S") tree9.walkFiles) ∧
    ((sync_project_to_server tree9 "P" "S" fs9).ok = false ∧
      ((sync_project_to_server tree9 "P" "S" fs9).log.filter Msg.isSummary).length =
        ([(([] : List String), "a")]).length ∧
      (∀ pf ∈ ([], "b") :: [(([] : List String), "c")],
        alookup (sync_project_to_server tree9 "P" "S" fs9).fs.files
          (dstOf (dst_project_of "P" "S") pf) =
        alookup fs9.files (dstOf (dst_project_of "P" "S") pf))) :=
  ⟨⟨by decide, by decide, by decide, ⟨by decide, by decide⟩⟩,
    C9_failure_semantics.1 tree9 "P" "S" fs9 [([], "a")] ([], "b") [([], "c")]
      (by decide) (by decide) (by decide) ⟨by decide, by decide⟩⟩
